import Mathlib

/-!
Shallow embedding of `snippet_extractor.py`: a static dependency slicer.
The Python code parses source units with `ast`, classifies references with a
`NodeVisitor` subclass (`CodeDependencyAnalyzer`), assembles a deduplicated,
line-ordered snippet (`FunctionContextAnalyzer`), and closes over imports
across units (`process_dependencies`).

Modelling conventions:
* Python `set` objects are modelled as insertion-ordered duplicate-free lists
  (`setAdd` appends only when absent); Python `dict` objects as association
  lists where an update of an existing key keeps its position (`dictInsert`).
* Python's stable `sorted` is modelled by `List.insertionSort`, which is also
  stable; stability is proved below (`pySorted_filter_key`), so the model and
  CPython's timsort agree on every input.
* Python exceptions are modelled with `Except`: `ast.parse` is an explicit
  `PyParse` argument returning `Except PyErr Module` (a `SyntaxError` raised by
  `ast.parse` called without a filename argument carries the default filename
  `"<unknown>"`, never the path of the unit being analysed), and the tuple
  unpacking `_, func = dependency.split('.')` yields `PyErr.valueError` when
  the split does not have exactly two parts.
* Machine recursion of `process_dependencies` is modelled with explicit fuel;
  `none` means the fuel ran out (a model artefact only: `process_fuel_enough`
  shows a computable fuel bound under which the result is never `none`, which
  is the termination statement for the Python recursion).
* 1-indexed line lookups `code_lines[lineno - 1]` are modelled with `List.getD`
  (the parser only produces in-range, 1-based line numbers).
-/

namespace PySlice

/-- Python exceptions that the modelled code can raise. -/
inductive PyErr where
  | parseError (filename : String)
  | valueError
  deriving DecidableEq, Repr

/-- Context of an `ast.Name` node. -/
inductive ExprCtx where
  | load
  | store
  | del
  deriving DecidableEq, Repr

/-- The fragment of Python expressions the analyzer inspects. -/
inductive Expr where
  | name (id : String) (ctx : ExprCtx) (lineno : Nat)
  | attribute (value : Expr) (attr : String) (lineno : Nat)
  | call (func : Expr) (args : List Expr) (lineno : Nat)
  | constant (lineno : Nat)
  deriving Repr

/-- The fragment of Python statements the analyzer inspects.  `end_lineno` of
a function definition is optional, mirroring the `hasattr` check in
`visit_FunctionDef`. -/
inductive Stmt where
  | importStmt (names : List String) (lineno : Nat)
  | importFrom (module : String) (names : List String) (lineno : Nat)
  | functionDef (name : String) (body : List Stmt) (lineno : Nat) (end_lineno : Option Nat)
  | classDef (name : String) (body : List Stmt) (lineno : Nat)
  | assign (targets : List Expr) (value : Expr) (lineno : Nat)
  | globalStmt (names : List String) (lineno : Nat)
  | exprStmt (value : Expr) (lineno : Nat)
  | ret (value : Option Expr) (lineno : Nat)
  | pass (lineno : Nat)
  deriving Repr

/-- An `ast.Module` is its list of top-level statements. -/
abbrev Module := List Stmt

/-- `ast.parse`, taken as a parameter of the development. -/
abbrev PyParse := String → Except PyErr Module

/-- A dependency record `(name, lineno, raw line text)`. -/
abbrev Record := String × Nat × String

/-- Split a character list at every occurrence of `c` (the semantics of
Python `str.split(c)` for a one-character separator). -/
def splitCharList (c : Char) : List Char → List (List Char)
  | [] => [[]]
  | x :: xs =>
      match splitCharList c xs with
      | [] => [[]]
      | g :: gs => if x = c then [] :: g :: gs else (x :: g) :: gs

/-- Python `s.split(c)` for a one-character separator `c`. -/
def splitOnChar (c : Char) (s : String) : List String :=
  (splitCharList c s.data).map (fun l => String.mk l)

/-- Python `sep.join(l)`. -/
def joinWith (sep : String) : List String → String
  | [] => ""
  | [x] => x
  | x :: y :: xs => x ++ sep ++ joinWith sep (y :: xs)

/-- Python `c in s` for a character `c`. -/
def strContains (s : String) (c : Char) : Bool :=
  s.data.contains c

/-- Python `str.splitlines` (for `\n`-separated text): like splitting on the
newline character but without a trailing empty chunk. -/
def pySplitlines (s : String) : List String :=
  let l := splitOnChar '\n' s
  if l.getLast? = some "" then l.dropLast else l

/-- The source line fetch `self.code_lines[node.lineno - 1]`. -/
def lineAt (code_lines : List String) (lineno : Nat) : String :=
  code_lines.getD (lineno - 1) ""

/-- Python `set.add` on the insertion-ordered list model. -/
def setAdd (s : List String) (x : String) : List String :=
  if x ∈ s then s else s ++ [x]

/-- Python `set.add` for sets of line indices. -/
def setAddNat (s : List Nat) (x : Nat) : List Nat :=
  if x ∈ s then s else s ++ [x]

/-- Python `d[k] = v`: updating an existing key keeps its position. -/
def dictInsert (d : List (String × Nat)) (k : String) (v : Nat) : List (String × Nat) :=
  if d.any (fun p => p.1 == k) then d.map (fun p => if p.1 == k then (k, v) else p)
  else d ++ [(k, v)]

/-- Python `d.get(k)` / `k in d` combined. -/
def dictLookup (d : List (String × Nat)) (k : String) : Option Nat :=
  (d.find? (fun p => p.1 == k)).map (fun p => p.2)

/-- The mutable state of `CodeDependencyAnalyzer`.  The seven `dep*` fields are
the category sets `self.dependencies[...]`, the seven `lines*` fields the
per-category record lists `self.dependency_lines[...]`, in the dict's
insertion order: functions, methods, classes, variables, globals, imports,
objects. -/
structure AState where
  target_function : String
  code_lines : List String
  depFunctions : List String := []
  depMethods : List String := []
  depClasses : List String := []
  depVariables : List String := []
  depGlobals : List String := []
  depImports : List String := []
  depObjects : List String := []
  linesFunctions : List Record := []
  linesMethods : List Record := []
  linesClasses : List Record := []
  linesVariables : List Record := []
  linesGlobals : List Record := []
  linesImports : List Record := []
  linesObjects : List Record := []
  current_function : Option String := none
  target_function_lines : List Nat := []
  global_definitions : List (String × Nat) := []
  used_globals : List String := []
  global_objects : List String := []
  deriving Repr

/-- The test `self.current_function == self.target_function`. -/
def inTarget (st : AState) : Bool :=
  st.current_function == some st.target_function

mutual

/-- Visitor dispatch for expression nodes (`visit_Name`, `visit_Call`; other
expression kinds fall through to `generic_visit`, which visits children). -/
def visitExpr (st : AState) : Expr → AState
  | .name id ctx _lineno =>
      -- visit_Name
      if ctx = ExprCtx.load then
        if inTarget st then
          let st1 := { st with
            depVariables := setAdd st.depVariables id,
            linesVariables := st.linesVariables ++ [(id, _lineno, lineAt st.code_lines _lineno)] }
          if (dictLookup st1.global_definitions id).isSome then
            { st1 with used_globals := setAdd st1.used_globals id }
          else st1
        else st
      else st
  | .attribute value _ _ => visitExpr st value
  | .call func args lineno =>
      -- visit_Call
      let st1 :=
        match func with
        | .attribute _ attr _ =>
            { st with depMethods := setAdd st.depMethods attr,
                      linesMethods := st.linesMethods ++ [(attr, lineno, lineAt st.code_lines lineno)] }
        | .name id _ _ =>
            if inTarget st then
              { st with depFunctions := setAdd st.depFunctions id,
                        linesFunctions := st.linesFunctions ++ [(id, lineno, lineAt st.code_lines lineno)] }
            else st
        | _ => st
      visitExprList (visitExpr st1 func) args
  | .constant _ => st

def visitExprList (st : AState) : List Expr → AState
  | [] => st
  | e :: es => visitExprList (visitExpr st e) es

end

mutual

/-- Visitor dispatch for statement nodes, one case per `visit_*` method of
`CodeDependencyAnalyzer`; each case ends by visiting the node's children,
matching the `generic_visit(node)` calls. -/
def visitStmt (st : AState) : Stmt → AState
  | .importStmt names lineno =>
      -- visit_Import
      names.foldl (fun acc nm =>
        { acc with depImports := setAdd acc.depImports nm,
                   linesImports := acc.linesImports ++ [(nm, lineno, lineAt acc.code_lines lineno)] }) st
  | .importFrom module names lineno =>
      -- visit_ImportFrom
      names.foldl (fun acc nm =>
        { acc with depImports := setAdd acc.depImports (module ++ "." ++ nm),
                   linesImports := acc.linesImports ++
                     [(module ++ "." ++ nm, lineno, lineAt acc.code_lines lineno)] }) st
  | .functionDef name body lineno end_lineno =>
      -- visit_FunctionDef
      if name = st.target_function then
        let st1 := { st with current_function := some name }
        let start_line := lineno - 1
        let end_line := end_lineno.getD start_line
        let spanLines := (List.range' start_line (end_line - start_line)).foldl setAddNat
          st1.target_function_lines
        let st2 := { st1 with target_function_lines := spanLines }
        let st3 := visitStmtList st2 body
        { st3 with current_function := none }
      else
        let st1 := { st with
          global_objects := setAdd st.global_objects name,
          depFunctions := setAdd st.depFunctions name,
          linesFunctions := st.linesFunctions ++ [(name, lineno, lineAt st.code_lines lineno)] }
        visitStmtList st1 body
  | .classDef name body lineno =>
      -- visit_ClassDef
      let st1 := { st with
        global_objects := setAdd st.global_objects name,
        depClasses := setAdd st.depClasses name,
        linesClasses := st.linesClasses ++ [(name, lineno, lineAt st.code_lines lineno)] }
      visitStmtList st1 body
  | .assign targets value lineno =>
      -- visit_Assign
      let st1 :=
        if inTarget st then
          targets.foldl (fun acc t =>
            match t with
            | .name id _ _ =>
                { acc with depVariables := setAdd acc.depVariables id,
                           linesVariables := acc.linesVariables ++
                             [(id, lineno, lineAt acc.code_lines lineno)] }
            | _ => acc) st
        else
          -- `node.targets[0]`: only the first target is inspected
          match targets with
          | .name id _ _ :: _ =>
              { st with global_definitions := dictInsert st.global_definitions id (lineno - 1) }
          | _ => st
      visitExpr (visitExprList st1 targets) value
  | .globalStmt names lineno =>
      -- visit_Global
      names.foldl (fun acc nm =>
        { acc with depGlobals := setAdd acc.depGlobals nm,
                   linesGlobals := acc.linesGlobals ++ [(nm, lineno, lineAt acc.code_lines lineno)] }) st
  | .exprStmt value lineno =>
      -- visit_Expr
      let st1 :=
        match value with
        | .call (.name id _ _) _ _ =>
            { st with depObjects := setAdd st.depObjects id,
                      linesObjects := st.linesObjects ++ [(id, lineno, lineAt st.code_lines lineno)] }
        | _ => st
      visitExpr st1 value
  | .ret value _ =>
      match value with
      | some e => visitExpr st e
      | none => st
  | .pass _ => st

def visitStmtList (st : AState) : List Stmt → AState
  | [] => st
  | s :: ss => visitStmtList (visitStmt st s) ss

end

/-- The analyzer's initial state (`CodeDependencyAnalyzer.__init__`). -/
def initState (target code : String) : AState :=
  { target_function := target, code_lines := pySplitlines code }

/-- `CodeDependencyAnalyzer.analyze`: parse `"\n".join(self.code_lines)` and
run the visitor over the module's statements. -/
def analyze (parse : PyParse) (target code : String) : Except PyErr AState :=
  (parse (joinWith "\n" (pySplitlines code))).map
    (fun m => visitStmtList (initState target code) m)

/-- A `FunctionContextAnalyzer` after `analyze()` has run: the target name, the
unit's source text and the analyzer state holding the analysis results. -/
structure FCA where
  target_function : String
  code : String
  st : AState

/-- The concatenation of `self.dependency_lines.items()` in the dict's
insertion order (first loop of `combine_and_sort_lines`). -/
def allCategoryLines (st : AState) : List Record :=
  st.linesFunctions ++ st.linesMethods ++ st.linesClasses ++ st.linesVariables ++
    st.linesGlobals ++ st.linesImports ++ st.linesObjects

/-- `all_lines` of `combine_and_sort_lines` just before sorting: category
records, then the target function's span, then used globals' definition lines,
then global objects' definition lines. -/
def combineAllLines (fca : FCA) : List Record :=
  let sl := pySplitlines fca.code
  allCategoryLines fca.st ++
    fca.st.target_function_lines.map (fun ln => ("target_function", ln + 1, sl.getD ln "")) ++
    fca.st.used_globals.filterMap (fun g =>
      (dictLookup fca.st.global_definitions g).map
        (fun ln => ("global_definition", ln + 1, sl.getD ln ""))) ++
    fca.st.global_objects.filterMap (fun g =>
      (dictLookup fca.st.global_definitions g).map
        (fun ln => ("global_object", ln + 1, sl.getD ln "")))

/-- Comparison used by `sorted(all_lines, key=lambda x: x[1])`. -/
def recLE (a b : Record) : Prop := a.2.1 ≤ b.2.1

instance : DecidableRel recLE := fun a b => inferInstanceAs (Decidable (a.2.1 ≤ b.2.1))

instance : IsTotal Record recLE := ⟨fun a b => Nat.le_total a.2.1 b.2.1⟩

instance : IsTrans Record recLE := ⟨fun _ _ _ h h2 => Nat.le_trans h h2⟩

/-- Python's stable `sorted` by line number, modelled by the (also stable)
insertion sort. -/
def pySorted (l : List Record) : List Record := l.insertionSort recLE

/-- The loop body of `dedup_lines`, with the `seen_lines` accumulator made
explicit. -/
def dedupGo (seen : List Nat) : List Record → List Record
  | [] => []
  | t :: rest =>
      if t.2.1 ∈ seen then dedupGo seen rest
      else t :: dedupGo (t.2.1 :: seen) rest

/-- `dedup_lines`: keep only the first record for each line number. -/
def dedup_lines (sorted_lines : List Record) : List Record :=
  dedupGo [] sorted_lines

/-- `FunctionContextAnalyzer.combine_and_sort_lines`. -/
def combine_and_sort_lines (fca : FCA) : List Record :=
  dedup_lines (pySorted (combineAllLines fca))

/-- `FunctionContextAnalyzer.output_code_snippet` (its local helper
`insert_on_indent` is defined but never called, so it is not modelled). -/
def output_code_snippet (fca : FCA) : String :=
  joinWith "\n" ((combine_and_sort_lines fca).map (fun t => t.2.2))

mutual

/-- Does `ast.walk(tree)` reach a `FunctionDef` named `target`?  `ast.walk`
yields every node at every nesting depth, so this recurses into function and
class bodies. -/
def stmtHasFuncDef (target : String) : Stmt → Bool
  | .functionDef name body _ _ => name == target || stmtListHasFuncDef target body
  | .classDef _ body _ => stmtListHasFuncDef target body
  | _ => false

def stmtListHasFuncDef (target : String) : List Stmt → Bool
  | [] => false
  | s :: ss => stmtHasFuncDef target s || stmtListHasFuncDef target ss

end

/-- The walk-based containment test used by `find_target_file`. -/
def moduleHasFuncDef (m : Module) (target : String) : Bool :=
  stmtListHasFuncDef target m

/-- The containment test as the spec describes it ("a top-level function
definition with that name"): only module-level statements are inspected.
Used to compare the code's behaviour against the spec's words. -/
def topLevelHasFuncDef (m : Module) (target : String) : Bool :=
  m.any fun s =>
    match s with
    | .functionDef name _ _ _ => name == target
    | _ => false

/-- `find_target_file`: scan the units in order, parse each, and return the
first whose tree contains a matching `FunctionDef`; `(None, None)` if none
does.  A parse failure propagates (it is not caught). -/
def find_target_file (parse : PyParse) (target : String) :
    List (String × String) → Except PyErr (Option (String × String))
  | [] => .ok none
  | (path, code) :: rest =>
      match parse code with
      | .error e => .error e
      | .ok m =>
          if moduleHasFuncDef m target then .ok (some (path, code))
          else find_target_file parse target rest

/-- The candidate function name the Closure Driver derives from an import
dependency: `_, func = dependency.split('.')` when the name contains a dot
(a `ValueError` when the split does not have exactly two parts), the whole
name otherwise. -/
def driverCandidate (dep : String) : Except PyErr String :=
  if strContains dep '.' then
    match splitOnChar '.' dep with
    | [_, func] => .ok func
    | _ => .error .valueError
  else .ok dep

/-- The `for dependency in dependencies:` loop of `process_dependencies`: the
header comment is appended before the recursive contribution, unconditionally.
The recursive call of `process_dependencies` is passed in as `recCall`, making
the loop itself structural over the dependency list. -/
def processImports (recCall : String → List String → Option (Except PyErr (String × List String))) :
    List String → String → List String → Option (Except PyErr (String × List String))
  | [], snippet, processed => some (.ok (snippet, processed))
  | dep :: deps, snippet, processed =>
      match driverCandidate dep with
      | .error e => some (.error e)
      | .ok func =>
          match recCall func processed with
          | none => none
          | some (.error e) => some (.error e)
          | some (.ok (sub, processed2)) =>
              processImports recCall deps
                (snippet ++ (("\n\n# Dependencies from " ++ dep ++ ":\n") ++ sub)) processed2

/-- `process_dependencies`.  The Python `processed_functions` set is shared by
mutation across the recursion; here it is threaded explicitly and returned.
`fuel` bounds the recursion depth (`none` = fuel ran out; a model artefact:
see `process_fuel_enough`). -/
def process_dependencies (parse : PyParse) (files : List (String × String)) :
    Nat → String → List String → Option (Except PyErr (String × List String))
  | 0, _, _ => none
  | fuel + 1, target, processed =>
      if target ∈ processed then some (.ok ("", processed))
      else
        let processed1 := processed ++ [target]
        match find_target_file parse target files with
        | .error e => some (.error e)
        | .ok none => some (.ok ("", processed1))
        | .ok (some (_, target_code)) =>
            match analyze parse target target_code with
            | .error e => some (.error e)
            | .ok ast =>
                processImports (fun t p => process_dependencies parse files fuel t p) ast.depImports
                  (output_code_snippet ⟨target, target_code, ast⟩) processed1

mutual

/-- The normalized import names recorded anywhere in a statement (imports are
recorded by the visitor regardless of scope, so nested bodies count). -/
def stmtImportNames : Stmt → List String
  | .importStmt names _ => names
  | .importFrom module names _ => names.map (fun nm => module ++ "." ++ nm)
  | .functionDef _ body _ _ => stmtListImportNames body
  | .classDef _ body _ => stmtListImportNames body
  | _ => []

def stmtListImportNames : List Stmt → List String
  | [] => []
  | s :: ss => stmtImportNames s ++ stmtListImportNames ss

end

/-- The candidate name an import dependency leads to, when it does not raise. -/
def candidateOf (dep : String) : Option String :=
  (driverCandidate dep).toOption

/-- Every function name the Closure Driver can ever recurse on for a given
corpus: the candidates of all import names of all parseable units. -/
def filesCandidates (parse : PyParse) (files : List (String × String)) : List String :=
  files.flatMap fun pc =>
    match parse (joinWith "\n" (pySplitlines pc.2)) with
    | .ok m => (stmtListImportNames m).filterMap candidateOf
    | .error _ => []

/-- A fuel amount sufficient for `process_dependencies` to run to completion
(proved in `process_fuel_enough`). -/
def processFuel (parse : PyParse) (files : List (String × String)) (target : String)
    (processed : List String) : Nat :=
  ((insert target (filesCandidates parse files).toFinset) \ processed.toFinset).card + 1

/-! ### Demonstration corpora used as concrete inputs -/

/-- Unit text: `fileA.py` of the mutual-import corpus. -/
def cycCodeA : String := "from fileB import g\ndef f():\n    return g()"

/-- Unit text: `fileB.py` of the mutual-import corpus. -/
def cycCodeB : String := "from fileA import f\ndef g():\n    return f()"

/-- Syntax tree of `cycCodeA`. -/
def cycModA : Module :=
  [.importFrom "fileB" ["g"] 1,
   .functionDef "f" [.ret (some (.call (.name "g" .load 3) [] 3)) 3] 2 (some 3)]

/-- Syntax tree of `cycCodeB`. -/
def cycModB : Module :=
  [.importFrom "fileA" ["f"] 1,
   .functionDef "g" [.ret (some (.call (.name "f" .load 3) [] 3)) 3] 2 (some 3)]

/-- Parser for the mutual-import corpus. -/
def cycParse : PyParse := fun s =>
  if s = cycCodeA then .ok cycModA
  else if s = cycCodeB then .ok cycModB
  else .error (.parseError "<unknown>")

/-- The mutual-import corpus: two units whose functions import each other. -/
def cycFiles : List (String × String) := [("fileA.py", cycCodeA), ("fileB.py", cycCodeB)]

/-- Unit text of the missing-import corpus: `os` resolves nowhere. -/
def osCode : String := "import os\ndef f():\n    pass"

/-- Syntax tree of `osCode`. -/
def osMod : Module :=
  [.importStmt ["os"] 1, .functionDef "f" [.pass 3] 2 (some 3)]

/-- Parser for the missing-import corpus. -/
def osParse : PyParse := fun s =>
  if s = osCode then .ok osMod else .error (.parseError "<unknown>")

/-- The missing-import corpus. -/
def osFiles : List (String × String) := [("d.py", osCode)]

/-- First unit of the nested-definition corpus: `f` exists only nested inside
`outer`. -/
def nestCode1 : String := "def outer():\n    def f():\n        pass"

/-- Syntax tree of `nestCode1`. -/
def nestMod1 : Module :=
  [.functionDef "outer" [.functionDef "f" [.pass 3] 2 (some 3)] 1 (some 3)]

/-- Second unit of the nested-definition corpus: `f` defined at top level. -/
def nestCode2 : String := "def f():\n    pass"

/-- Syntax tree of `nestCode2`. -/
def nestMod2 : Module := [.functionDef "f" [.pass 2] 1 (some 2)]

/-- Parser for the nested-definition corpus. -/
def nestParse : PyParse := fun s =>
  if s = nestCode1 then .ok nestMod1
  else if s = nestCode2 then .ok nestMod2
  else .error (.parseError "<unknown>")

/-- The nested-definition corpus. -/
def nestFiles : List (String × String) := [("u1.py", nestCode1), ("u2.py", nestCode2)]

/-! ### Properties of the stable sort and of the deduplication pass -/

/-- The record key the assembler sorts by (`key=lambda x: x[1]`). -/
def rkey (t : Record) : Nat := t.2.1

theorem pySorted_sorted (l : List Record) : (pySorted l).Pairwise recLE :=
  List.sorted_insertionSort recLE l

theorem filter_orderedInsert (k : Nat) (a : Record) (l : List Record) :
    (l.orderedInsert recLE a).filter (fun t => rkey t == k) =
      if rkey a == k then a :: l.filter (fun t => rkey t == k)
      else l.filter (fun t => rkey t == k) := by
  induction l with
  | nil => by_cases h : rkey a == k <;> simp [List.orderedInsert, h]
  | cons b l ih =>
      by_cases hle : recLE a b
      · by_cases h : rkey a == k <;>
          simp [List.orderedInsert, hle, h, List.filter_cons]
      · have hb : rkey b < rkey a := by
          simpa [recLE, Nat.not_le] using hle
        by_cases h : rkey a == k
        · have hbk : ¬(rkey b == k) := by
            have : rkey a = k := by simpa using h
            simp only [beq_iff_eq]
            omega
          simp [List.orderedInsert, hle, List.filter_cons, hbk, ih, h]
        · by_cases hbk : rkey b == k <;>
            simp [List.orderedInsert, hle, List.filter_cons, hbk, ih, h]

/-- Stability of the modelled `sorted`: records with any fixed line number
appear in the sorted list exactly in their original order, which is what
Python's stable timsort guarantees. -/
theorem pySorted_filter_key (k : Nat) (l : List Record) :
    (pySorted l).filter (fun t => rkey t == k) = l.filter (fun t => rkey t == k) := by
  induction l with
  | nil => rfl
  | cons a l ih =>
      simp only [pySorted] at ih ⊢
      show ((List.insertionSort recLE l).orderedInsert recLE a).filter _ = _
      rw [filter_orderedInsert]
      by_cases h : rkey a == k <;> simp [h, List.filter_cons, ih]

theorem dedupGo_cons_mem {seen : List Nat} {a : Record} {l : List Record}
    (h : a.2.1 ∈ seen) : dedupGo seen (a :: l) = dedupGo seen l := by
  simp [dedupGo, h]

theorem dedupGo_cons_new {seen : List Nat} {a : Record} {l : List Record}
    (h : a.2.1 ∉ seen) : dedupGo seen (a :: l) = a :: dedupGo (a.2.1 :: seen) l := by
  simp [dedupGo, h]

theorem dedupGo_not_seen {seen : List Nat} {l : List Record} {t : Record}
    (ht : t ∈ dedupGo seen l) : t.2.1 ∉ seen := by
  induction l generalizing seen with
  | nil => simp [dedupGo] at ht
  | cons a l ih =>
      by_cases h : a.2.1 ∈ seen
      · exact ih (by rwa [dedupGo_cons_mem h] at ht)
      · rw [dedupGo_cons_new h] at ht
        rcases List.mem_cons.mp ht with rfl | hmem
        · exact h
        · intro hc
          exact ih hmem (List.mem_cons_of_mem _ hc)

theorem dedupGo_sublist (seen : List Nat) (l : List Record) :
    List.Sublist (dedupGo seen l) l := by
  induction l generalizing seen with
  | nil => simp [dedupGo]
  | cons a l ih =>
      by_cases h : a.2.1 ∈ seen
      · rw [dedupGo_cons_mem h]
        exact (ih seen).trans (List.sublist_cons_self a l)
      · rw [dedupGo_cons_new h]
        exact (ih (a.2.1 :: seen)).cons₂ a

theorem dedupGo_keys_distinct (seen : List Nat) (l : List Record) :
    (dedupGo seen l).Pairwise (fun a b => rkey a ≠ rkey b) := by
  induction l generalizing seen with
  | nil => simp [dedupGo]
  | cons a l ih =>
      by_cases h : a.2.1 ∈ seen
      · rw [dedupGo_cons_mem h]
        exact ih seen
      · rw [dedupGo_cons_new h]
        refine List.Pairwise.cons (fun b hb => ?_) (ih _)
        intro hc
        exact dedupGo_not_seen hb (by
          simp only [rkey] at hc
          exact hc ▸ List.mem_cons_self a.2.1 seen)

theorem dedupGo_find? {seen : List Nat} {l : List Record} {t : Record}
    (ht : t ∈ dedupGo seen l) :
    l.find? (fun u => rkey u == rkey t) = some t := by
  induction l generalizing seen with
  | nil => simp [dedupGo] at ht
  | cons a l ih =>
      by_cases h : a.2.1 ∈ seen
      · have ht' : t ∈ dedupGo seen l := by rwa [dedupGo_cons_mem h] at ht
        have hne : rkey a ≠ rkey t := by
          intro hc
          exact dedupGo_not_seen ht' (by simp only [rkey] at hc; exact hc ▸ h)
        rw [List.find?_cons_of_neg _ (by simpa using hne), ih ht']
      · rw [dedupGo_cons_new h] at ht
        rcases List.mem_cons.mp ht with rfl | hmem
        · exact List.find?_cons_of_pos _ (by simp)
        · have hne : rkey a ≠ rkey t := by
            intro hc
            refine dedupGo_not_seen hmem ?_
            simp only [rkey] at hc
            exact hc ▸ List.mem_cons_self a.2.1 seen
          rw [List.find?_cons_of_neg _ (by simpa using hne), ih hmem]

theorem dedup_lines_strict_sorted {l : List Record} (hl : l.Pairwise recLE) :
    (dedup_lines l).Pairwise (fun a b => rkey a < rkey b) := by
  have h1 : (dedup_lines l).Pairwise recLE := hl.sublist (dedupGo_sublist [] l)
  have h2 : (dedup_lines l).Pairwise (fun a b => rkey a ≠ rkey b) :=
    dedupGo_keys_distinct [] l
  exact (h1.and h2).imp (fun h => Nat.lt_of_le_of_ne h.1 h.2)

/-- The analysis of the missing-import corpus for target `f`, packaged as a
`FunctionContextAnalyzer`. -/
def osFCA : FCA :=
  ⟨"f", osCode, visitStmtList (initState "f" osCode) osMod⟩

/-- Claim C2: `combine_and_sort_lines` produces a list that is strictly
ascending in the 1-indexed line number (so it is sorted and has at most one
entry per line number, and an entry with a smaller line number — e.g. a helper
defined on earlier lines — precedes every entry with a larger one, e.g. the
target's body lines); each kept entry is the first entry with its line number
in the stable-sorted order of the collected records; and the stable sort
preserves, for every line number, the original relative order of the collected
records. -/
theorem c2_combine_sorted_dedup (fca : FCA) :
    (combine_and_sort_lines fca).Pairwise (fun a b => rkey a < rkey b) ∧
    (∀ t ∈ combine_and_sort_lines fca,
        (pySorted (combineAllLines fca)).find? (fun u => rkey u == rkey t) = some t) ∧
    (∀ k, (pySorted (combineAllLines fca)).filter (fun t => rkey t == k) =
        (combineAllLines fca).filter (fun t => rkey t == k)) := by
  refine ⟨dedup_lines_strict_sorted (pySorted_sorted _), fun t ht => ?_, fun k => pySorted_filter_key k _⟩
  exact dedupGo_find? ht

/-- Witness for C2 at the missing-import corpus: the kept entry for line 1 is
the import record, the first record with that line number in the sorted list. -/
theorem c2_combine_sorted_dedup_witness :
    (pySorted (combineAllLines osFCA)).find?
      (fun u => rkey u == rkey ("os", 1, "import os")) = some ("os", 1, "import os") :=
  (c2_combine_sorted_dedup osFCA).2.1 ("os", 1, "import os") (by decide)

/-! ### Resolution and error propagation in the Closure Driver -/

/-- On a corpus whose units all parse, `find_target_file` returns exactly the
first unit whose tree contains a matching function definition (at any
depth). -/
theorem find_target_file_eq_find? (parse : PyParse) (target : String)
    (files : List (String × String)) (h : ∀ pc ∈ files, ∃ m, parse pc.2 = .ok m) :
    find_target_file parse target files = .ok (files.find? (fun pc =>
      match parse pc.2 with
      | .ok m => moduleHasFuncDef m target
      | .error _ => false)) := by
  induction files with
  | nil => rfl
  | cons pc rest ih =>
      obtain ⟨m, hm⟩ := h pc (List.mem_cons_self pc rest)
      have ih' := ih (fun q hq => h q (List.mem_cons_of_mem pc hq))
      by_cases hf : moduleHasFuncDef m target
      · simp [find_target_file, hm, hf, List.find?_cons]
      · simp only [find_target_file, hm, hf, if_false, List.find?_cons]
        simpa [hm, hf] using ih'

/-- Claim C3 (amended): `find_target_file` selects, in the mapping's iteration
order, the first unit whose syntax tree contains a function definition with
the target name at any nesting depth (`ast.walk` also reaches nested
definitions, not only top-level ones); and when no unit matches,
`process_dependencies` returns the empty string without an error. -/
theorem c3_resolution_walk :
    (∀ (parse : PyParse) (target : String) (files : List (String × String)),
        (∀ pc ∈ files, ∃ m, parse pc.2 = .ok m) →
        find_target_file parse target files = .ok (files.find? (fun pc =>
          match parse pc.2 with
          | .ok m => moduleHasFuncDef m target
          | .error _ => false))) ∧
    (∀ (parse : PyParse) (files : List (String × String)) (fuel : Nat) (target : String)
        (P : List String), target ∉ P →
        find_target_file parse target files = .ok none →
        process_dependencies parse files (fuel + 1) target P = some (.ok ("", P ++ [target]))) := by
  refine ⟨find_target_file_eq_find?, fun parse files fuel target P hP hfind => ?_⟩
  simp [process_dependencies, hP, hfind]

/-- Witness for C3 (amended), on a two-unit corpus: the scan stops at the very
first unit, and an absent name yields the empty snippet. -/
theorem c3_resolution_walk_witness :
    find_target_file nestParse "f" nestFiles = .ok (nestFiles.find? (fun pc =>
      match nestParse pc.2 with
      | .ok m => moduleHasFuncDef m "f"
      | .error _ => false)) ∧
    process_dependencies nestParse nestFiles 1 "zzz" [] = some (.ok ("", ["zzz"])) :=
  ⟨c3_resolution_walk.1 nestParse "f" nestFiles (by
      intro pc hpc
      rcases (by simpa [nestFiles] using hpc : pc = ("u1.py", nestCode1) ∨
          pc = ("u2.py", nestCode2)) with rfl | rfl
      · exact ⟨nestMod1, rfl⟩
      · exact ⟨nestMod2, rfl⟩),
   c3_resolution_walk.2 nestParse nestFiles 0 "zzz" [] (by decide) rfl⟩

/-- Counterexample to Claim C3 as stated: in a corpus whose first unit defines
`f` only nested inside another function and whose second unit defines `f` at
top level, the code selects the first unit — not the first unit with a
top-level definition, as the claim says. -/
theorem c3_nested_def_selected :
    find_target_file nestParse "f" nestFiles = .ok (some ("u1.py", nestCode1)) ∧
    topLevelHasFuncDef nestMod1 "f" = false ∧
    topLevelHasFuncDef nestMod2 "f" = true :=
  ⟨rfl, rfl, rfl⟩

/-- Whatever the import loop appends, the incoming snippet stays a prefix of
the output (`code_snippet +=` only ever appends). -/
theorem processImports_snippet_prefix
    (recCall : String → List String → Option (Except PyErr (String × List String)))
    (deps : List String) :
    ∀ snippet P out P', processImports recCall deps snippet P = some (.ok (out, P')) →
      ∃ suffix, out = snippet ++ suffix := by
  induction deps with
  | nil =>
      intro snippet P out P' h
      obtain ⟨h1, -⟩ : snippet = out ∧ P = P' := by simpa [processImports] using h
      exact ⟨"", by rw [← h1, String.append_empty]⟩
  | cons dep deps ih =>
      intro snippet P out P' h
      simp only [processImports] at h
      split at h
      · exact absurd h (by simp)
      · split at h
        · exact absurd h (by simp)
        · exact absurd h (by simp)
        · rename_i sub processed2 heq
          obtain ⟨suffix, hs⟩ := ih _ _ _ _ h
          exact ⟨("\n\n# Dependencies from " ++ dep ++ ":\n" ++ sub) ++ suffix, by
            rw [hs, String.append_assoc]⟩

/-- Claim C5 (amended): the Closure Driver appends the header line
`"\n\n# Dependencies from <import-name>:\n"` for every import dependency it
processes, regardless of whether that import's recursively resolved
contribution is empty — the header is concatenated before the recursive call's
result is known. -/
theorem c5_header_always
    (recCall : String → List String → Option (Except PyErr (String × List String)))
    (dep : String) (deps : List String) (snippet : String) (P : List String)
    (out : String) (P' : List String)
    (h : processImports recCall (dep :: deps) snippet P = some (.ok (out, P'))) :
    ∃ rest, out = snippet ++ (("\n\n# Dependencies from " ++ dep ++ ":\n") ++ rest) := by
  simp only [processImports] at h
  split at h
  · exact absurd h (by simp)
  · split at h
    · exact absurd h (by simp)
    · exact absurd h (by simp)
    · rename_i sub processed2 heq
      obtain ⟨suffix, hs⟩ := processImports_snippet_prefix recCall deps _ _ _ _ h
      exact ⟨sub ++ suffix, by rw [hs, String.append_assoc, String.append_assoc]⟩

/-- Witness for C5 (amended) at the missing-import corpus: the loop output for
the single dependency `os` starts with the snippet followed by the `os`
header. -/
theorem c5_header_always_witness :
    ∃ rest, "import os\ndef f():\n    pass" ++ (("\n\n# Dependencies from " ++ "os" ++ ":\n") ++ "") =
      "import os\ndef f():\n    pass" ++ (("\n\n# Dependencies from " ++ "os" ++ ":\n") ++ rest) :=
  c5_header_always (fun t p => process_dependencies osParse osFiles 1 t p) "os" []
    "import os\ndef f():\n    pass" ["f"]
    ("import os\ndef f():\n    pass" ++ (("\n\n# Dependencies from " ++ "os" ++ ":\n") ++ ""))
    ["f", "os"] rfl

/-- Counterexample to Claim C5 as stated: in the missing-import corpus the
recursive contribution for `os` is the empty string, yet the final snippet
still ends with the `os` header — the header is not restricted to non-empty
contributions. -/
theorem c5_header_on_empty :
    process_dependencies osParse osFiles 1 "os" ["f"] = some (.ok ("", ["f", "os"])) ∧
    process_dependencies osParse osFiles 2 "f" [] =
      some (.ok ("import os\ndef f():\n    pass" ++
        (("\n\n# Dependencies from " ++ "os" ++ ":\n") ++ ""), ["f", "os"])) :=
  ⟨rfl, rfl⟩

theorem splitCharList_ne_nil (c : Char) (l : List Char) : splitCharList c l ≠ [] := by
  cases l with
  | nil => simp [splitCharList]
  | cons x xs =>
      simp only [splitCharList]
      rcases h : splitCharList c xs with _ | ⟨g, gs⟩
      · simp
      · by_cases hx : x = c <;> simp [hx]

/-- A split with more than one chunk means the separator occurs in the list. -/
theorem contains_of_splitCharList_long {c : Char} {l : List Char}
    (h : 1 < (splitCharList c l).length) : l.contains c = true := by
  induction l with
  | nil => simp [splitCharList] at h
  | cons x xs ih =>
      simp only [splitCharList] at h
      rcases hs : splitCharList c xs with _ | ⟨g, gs⟩
      · exact absurd hs (splitCharList_ne_nil c xs)
      · rw [hs] at h
        by_cases hx : x = c
        · simp [List.contains_cons, hx]
        · simp only [hx, if_false] at h
          have hlen : 1 < (splitCharList c xs).length := by
            rw [hs]
            simp only [List.length_cons] at h ⊢
            omega
          have hmem : c ∈ xs := by simpa using ih hlen
          simp [List.contains_cons, hmem]

/-- Claim C6 (amended): for an import name containing exactly one separator
dot, the Closure Driver uses the symbol after that (last) dot as the new
candidate function name; for a dot-free name it uses the whole name; but for a
name with two or more dots the unpacking `_, func = dependency.split('.')`
raises a `ValueError`, which the import loop turns into an error result — the
resolution step does not succeed on every normalized import name. -/
theorem c6_candidate_resolution :
    (∀ dep a b, splitOnChar '.' dep = [a, b] →
        driverCandidate dep = .ok b ∧ (splitOnChar '.' dep).getLast? = some b) ∧
    (∀ dep, strContains dep '.' = false → driverCandidate dep = .ok dep) ∧
    (∀ dep x y z rest, strContains dep '.' = true →
        splitOnChar '.' dep = x :: y :: z :: rest →
        driverCandidate dep = .error .valueError) ∧
    (∀ recCall dep deps snippet P func, driverCandidate dep = .ok func →
        processImports recCall (dep :: deps) snippet P =
          (match recCall func P with
           | none => none
           | some (.error e) => some (.error e)
           | some (.ok (sub, processed2)) =>
               processImports recCall deps
                 (snippet ++ (("\n\n# Dependencies from " ++ dep ++ ":\n") ++ sub)) processed2)) ∧
    (∀ recCall dep deps snippet P e, driverCandidate dep = .error e →
        processImports recCall (dep :: deps) snippet P = some (.error e)) := by
  refine ⟨fun dep a b h => ⟨?_, by simp [h]⟩, fun dep h => ?_, fun dep x y z rest hc h => ?_,
    fun recCall dep deps snippet P func h => ?_, fun recCall dep deps snippet P e h => ?_⟩
  · have hc : strContains dep '.' = true := by
      have hlen : 1 < (splitCharList '.' dep.data).length := by
        have h2 : (splitCharList '.' dep.data).length = 2 := by
          have := congrArg List.length h
          simpa [splitOnChar] using this
        omega
      simpa [strContains] using contains_of_splitCharList_long hlen
    simp [driverCandidate, hc, h]
  · simp [driverCandidate, h]
  · simp [driverCandidate, hc, h]
  · simp [processImports, h]
  · simp [processImports, h]

/-- Unit text of the multi-dot import corpus: `from a.b import c` normalizes
to the import name `a.b.c`, which has two separator dots. -/
def dotCode : String := "from a.b import c\ndef f():\n    pass"

/-- Syntax tree of `dotCode`. -/
def dotMod : Module :=
  [.importFrom "a.b" ["c"] 1, .functionDef "f" [.pass 3] 2 (some 3)]

/-- Parser for the multi-dot import corpus. -/
def dotParse : PyParse := fun s =>
  if s = dotCode then .ok dotMod else .error (.parseError "<unknown>")

/-- The multi-dot import corpus. -/
def dotFiles : List (String × String) := [("e.py", dotCode)]

/-- Witness for C6 (amended) at concrete import names: one dot resolves to the
trailing symbol, no dot resolves to the whole name, two dots raise. -/
theorem c6_candidate_resolution_witness :
    driverCandidate "a.b" = .ok "b" ∧ driverCandidate "os" = .ok "os" ∧
    driverCandidate "a.b.c" = .error .valueError :=
  ⟨(c6_candidate_resolution.1 "a.b" "a" "b" (by decide)).1,
   c6_candidate_resolution.2.1 "os" (by decide),
   c6_candidate_resolution.2.2.1 "a.b.c" "a" "b" "c" [] (by decide) (by decide)⟩

/-- Counterexample to Claim C6 as stated: on a corpus with the from-import
`from a.b import c` (normalized name `a.b.c`, two separator dots) the whole
closure computation raises a `ValueError` instead of resolving the symbol
after the last separator. -/
theorem c6_multidot_valueerror :
    process_dependencies dotParse dotFiles 2 "f" [] = some (.error .valueError) := rfl

/-- Claim C7 (amended): a parse failure makes the Analyzer fail with the
parser's error and no partial result; `find_target_file` fails the same way
when a unit scanned before any match is unparseable; and the Closure Driver
does not catch the error, so it aborts the whole closure computation.  The
propagated error is exactly the parser's: neither the Analyzer nor the Driver
attaches the unit's identifier to it (the parser is invoked on the text
alone). -/
theorem c7_parse_error_propagates :
    (∀ (parse : PyParse) (target code : String) (e : PyErr),
        parse (joinWith "\n" (pySplitlines code)) = .error e →
        analyze parse target code = .error e) ∧
    (∀ (parse : PyParse) (path code : String) (rest : List (String × String))
        (target : String) (e : PyErr), parse code = .error e →
        find_target_file parse target ((path, code) :: rest) = .error e) ∧
    (∀ (parse : PyParse) (files : List (String × String)) (fuel : Nat) (target : String)
        (P : List String) (e : PyErr), target ∉ P →
        find_target_file parse target files = .error e →
        process_dependencies parse files (fuel + 1) target P = some (.error e)) := by
  refine ⟨fun parse target code e h => ?_, fun parse path code rest target e h => ?_,
    fun parse files fuel target P e hP hfind => ?_⟩
  · simp [analyze, h, Except.map]
  · simp [find_target_file, h]
  · simp [process_dependencies, hP, hfind]

/-- A parser that rejects every unit, raising the `SyntaxError` whose filename
is `ast.parse`'s default `"<unknown>"`. -/
def badParse : PyParse := fun _ => .error (.parseError "<unknown>")

/-- Witness for C7 (amended): the analyzer, the scan and the closure all
propagate the parser's error on an unparseable one-unit corpus. -/
theorem c7_parse_error_propagates_witness :
    analyze badParse "f" "def f(:" = .error (.parseError "<unknown>") ∧
    find_target_file badParse "f" [("other.py", "def f(:")] = .error (.parseError "<unknown>") ∧
    process_dependencies badParse [("other.py", "def f(:")] 1 "f" [] =
      some (.error (.parseError "<unknown>")) :=
  ⟨c7_parse_error_propagates.1 badParse "f" "def f(:" _ rfl,
   c7_parse_error_propagates.2.1 badParse "other.py" "def f(:" [] "f" _ rfl,
   c7_parse_error_propagates.2.2 badParse [("other.py", "def f(:")] 0 "f" [] _ (by decide) rfl⟩

/-- Counterexample to Claim C7 as stated: the error that aborts the closure on
an unparseable unit carries `ast.parse`'s default filename `"<unknown>"`, not
the identifier `mycode.py` of the offending source unit — the Analyzer is
never given the unit identifier to attach. -/
theorem c7_error_filename_not_unit :
    process_dependencies badParse [("mycode.py", "def f(:")] 1 "f" [] =
      some (.error (.parseError "<unknown>")) ∧ ("<unknown>" : String) ≠ "mycode.py" :=
  ⟨rfl, by decide⟩

/-! ### State components untouched by expression visitors -/

/-- The analyzer-state fields that no expression visitor ever writes:
expressions record methods, functions, variables and used globals, but never
imports, global definitions, the target span, the scope flag or the constant
configuration fields. -/
def exprPreserved (st st' : AState) : Prop :=
  st'.target_function = st.target_function ∧ st'.code_lines = st.code_lines ∧
  st'.current_function = st.current_function ∧
  st'.global_definitions = st.global_definitions ∧
  st'.target_function_lines = st.target_function_lines ∧
  st'.depImports = st.depImports ∧ st'.linesImports = st.linesImports ∧
  st'.global_objects = st.global_objects

theorem exprPreserved_refl (st : AState) : exprPreserved st st :=
  ⟨rfl, rfl, rfl, rfl, rfl, rfl, rfl, rfl⟩

theorem exprPreserved_trans {a b c : AState}
    (h1 : exprPreserved a b) (h2 : exprPreserved b c) : exprPreserved a c := by
  obtain ⟨p1, p2, p3, p4, p5, p6, p7, p8⟩ := h1
  obtain ⟨q1, q2, q3, q4, q5, q6, q7, q8⟩ := h2
  exact ⟨q1.trans p1, q2.trans p2, q3.trans p3, q4.trans p4, q5.trans p5,
    q6.trans p6, q7.trans p7, q8.trans p8⟩

mutual

theorem visitExpr_preserved (st : AState) : (e : Expr) → exprPreserved st (visitExpr st e)
  | .name id ctx lineno => by
      simp only [visitExpr]
      split
      · split
        · split <;> simp [exprPreserved]
        · exact exprPreserved_refl st
      · exact exprPreserved_refl st
  | .attribute v a l => visitExpr_preserved st v
  | .call (.name id cx l2) args lineno => by
      rw [visitExpr]
      refine exprPreserved_trans (exprPreserved_trans ?_ (visitExpr_preserved _ _))
        (visitExprList_preserved _ _)
      by_cases h : inTarget st <;> simp [exprPreserved, h]
  | .call (.attribute v a2 l2) args lineno => by
      rw [visitExpr]
      refine exprPreserved_trans (exprPreserved_trans ?_ (visitExpr_preserved _ _))
        (visitExprList_preserved _ _)
      simp [exprPreserved]
  | .call (.call f2 a2 l2) args lineno => by
      rw [visitExpr]
      · exact exprPreserved_trans (visitExpr_preserved _ _) (visitExprList_preserved _ _)
      · simp
      · simp
  | .call (.constant l2) args lineno => by
      rw [visitExpr]
      · exact exprPreserved_trans (visitExpr_preserved _ _) (visitExprList_preserved _ _)
      · simp
      · simp
  | .constant _ => exprPreserved_refl st

theorem visitExprList_preserved (st : AState) : (es : List Expr) →
    exprPreserved st (visitExprList st es)
  | [] => exprPreserved_refl st
  | e :: es => by
      rw [visitExprList]
      exact exprPreserved_trans (visitExpr_preserved _ _) (visitExprList_preserved _ _)

end

mutual

theorem visitExpr_linesVar_extend (st : AState) : (e : Expr) →
    ∃ t, (visitExpr st e).linesVariables = st.linesVariables ++ t
  | .name id ctx lineno => by
      simp only [visitExpr]
      split
      · split
        · split
          · exact ⟨[(id, lineno, lineAt st.code_lines lineno)], by simp⟩
          · exact ⟨[(id, lineno, lineAt st.code_lines lineno)], by simp⟩
        · exact ⟨[], by simp⟩
      · exact ⟨[], by simp⟩
  | .attribute v a l => visitExpr_linesVar_extend st v
  | .call (.name id cx l2) args lineno => by
      rw [visitExpr]
      obtain ⟨t1, h1⟩ := visitExpr_linesVar_extend
        (if inTarget st then
          { st with depFunctions := setAdd st.depFunctions id,
                    linesFunctions := st.linesFunctions ++
                      [(id, lineno, lineAt st.code_lines lineno)] }
         else st) (.name id cx l2)
      obtain ⟨t2, h2⟩ := visitExprList_linesVar_extend _ args
      have hv : (if inTarget st then
          { st with depFunctions := setAdd st.depFunctions id,
                    linesFunctions := st.linesFunctions ++
                      [(id, lineno, lineAt st.code_lines lineno)] }
         else st).linesVariables = st.linesVariables := by
        by_cases h : inTarget st <;> simp [h]
      exact ⟨t1 ++ t2, by rw [h2, h1, hv, List.append_assoc]⟩
  | .call (.attribute v a2 l2) args lineno => by
      rw [visitExpr]
      obtain ⟨t1, h1⟩ := visitExpr_linesVar_extend
        { st with depMethods := setAdd st.depMethods a2,
                  linesMethods := st.linesMethods ++
                    [(a2, lineno, lineAt st.code_lines lineno)] } (.attribute v a2 l2)
      obtain ⟨t2, h2⟩ := visitExprList_linesVar_extend _ args
      exact ⟨t1 ++ t2, by rw [h2, h1]; simp [List.append_assoc]⟩
  | .call (.call f2 a2 l2) args lineno => by
      rw [visitExpr]
      · obtain ⟨t1, h1⟩ := visitExpr_linesVar_extend st (.call f2 a2 l2)
        obtain ⟨t2, h2⟩ := visitExprList_linesVar_extend _ args
        exact ⟨t1 ++ t2, by rw [h2, h1, List.append_assoc]⟩
      · simp
      · simp
  | .call (.constant l2) args lineno => by
      rw [visitExpr]
      · obtain ⟨t1, h1⟩ := visitExpr_linesVar_extend st (.constant l2)
        obtain ⟨t2, h2⟩ := visitExprList_linesVar_extend _ args
        exact ⟨t1 ++ t2, by rw [h2, h1, List.append_assoc]⟩
      · simp
      · simp
  | .constant _ => ⟨[], by simp [visitExpr]⟩

theorem visitExprList_linesVar_extend (st : AState) : (es : List Expr) →
    ∃ t, (visitExprList st es).linesVariables = st.linesVariables ++ t
  | [] => ⟨[], by simp [visitExprList]⟩
  | e :: es => by
      rw [visitExprList]
      obtain ⟨t1, h1⟩ := visitExpr_linesVar_extend st e
      obtain ⟨t2, h2⟩ := visitExprList_linesVar_extend (visitExpr st e) es
      exact ⟨t1 ++ t2, by rw [h2, h1, List.append_assoc]⟩

end

/-- Claim C10: for an assignment visited outside target scope, the Global
Definition Table update is decided by the first assignment target alone — it
is updated exactly when that first target is a simple name — and the remaining
targets (and the assigned value) never influence the table. -/
theorem c10_first_target_only :
    (∀ (st : AState) (targets : List Expr) (value : Expr) (lineno : Nat),
        inTarget st = false →
        (visitStmt st (.assign targets value lineno)).global_definitions =
          (match targets.head? with
           | some (.name id _ _) => dictInsert st.global_definitions id (lineno - 1)
           | _ => st.global_definitions)) ∧
    (∀ (st : AState) (hd : Expr) (tl1 tl2 : List Expr) (v1 v2 : Expr) (lineno : Nat),
        inTarget st = false →
        (visitStmt st (.assign (hd :: tl1) v1 lineno)).global_definitions =
        (visitStmt st (.assign (hd :: tl2) v2 lineno)).global_definitions) := by
  have main : ∀ (st : AState) (targets : List Expr) (value : Expr) (lineno : Nat),
      inTarget st = false →
      (visitStmt st (.assign targets value lineno)).global_definitions =
        (match targets.head? with
         | some (.name id _ _) => dictInsert st.global_definitions id (lineno - 1)
         | _ => st.global_definitions) := by
    intro st targets value lineno h
    rcases targets with _ | ⟨t, ts⟩
    · rw [visitStmt, (visitExpr_preserved _ _).2.2.2.1, (visitExprList_preserved _ _).2.2.2.1,
        if_neg (by simp [h])] <;> simp
    · rcases t with ⟨id, cx, l2⟩ | ⟨v, a2, l2⟩ | ⟨f2, a2, l2⟩ | ⟨l2⟩ <;>
        rw [visitStmt, (visitExpr_preserved _ _).2.2.2.1, (visitExprList_preserved _ _).2.2.2.1,
          if_neg (by simp [h])] <;> simp
  refine ⟨main, fun st hd tl1 tl2 v1 v2 lineno h => ?_⟩
  rw [main st (hd :: tl1) v1 lineno h, main st (hd :: tl2) v2 lineno h]
  rcases hd with ⟨id, cx, l2⟩ | ⟨v, a2, l2⟩ | ⟨f2, a2, l2⟩ | ⟨l2⟩ <;> rfl

theorem assignFold_gdefs (lineno : Nat) : ∀ (targets : List Expr) (st : AState),
    (targets.foldl (fun acc t =>
      match t with
      | .name id _ _ =>
          { acc with depVariables := setAdd acc.depVariables id,
                     linesVariables := acc.linesVariables ++
                       [(id, lineno, lineAt acc.code_lines lineno)] }
      | _ => acc) st).global_definitions = st.global_definitions
  | [], _ => rfl
  | t :: ts, st => by
      rw [List.foldl_cons, assignFold_gdefs lineno ts]
      rcases t with ⟨id, cx, l2⟩ | ⟨v, a2, l2⟩ | ⟨f2, a2, l2⟩ | ⟨l2⟩ <;> rfl

theorem assignFold_extends (lineno : Nat) : ∀ (targets : List Expr) (st : AState),
    ∃ suffix, (targets.foldl (fun acc t =>
      match t with
      | .name id _ _ =>
          { acc with depVariables := setAdd acc.depVariables id,
                     linesVariables := acc.linesVariables ++
                       [(id, lineno, lineAt acc.code_lines lineno)] }
      | _ => acc) st).linesVariables = st.linesVariables ++ suffix
  | [], st => ⟨[], by simp⟩
  | t :: ts, st => by
      rw [List.foldl_cons]
      obtain ⟨suffix, hs⟩ := assignFold_extends lineno ts
        ((fun acc t =>
          match t with
          | .name id _ _ =>
              { acc with depVariables := setAdd acc.depVariables id,
                         linesVariables := acc.linesVariables ++
                           [(id, lineno, lineAt acc.code_lines lineno)] }
          | _ => acc) st t)
      rw [hs]
      rcases t with ⟨id, cx, l2⟩ | ⟨v, a2, l2⟩ | ⟨f2, a2, l2⟩ | ⟨l2⟩
      · exact ⟨[(id, lineno, lineAt st.code_lines lineno)] ++ suffix, by simp⟩
      · exact ⟨suffix, rfl⟩
      · exact ⟨suffix, rfl⟩
      · exact ⟨suffix, rfl⟩

theorem assignFold_mem_vars (lineno : Nat) : ∀ (targets : List Expr) (st : AState)
    (id : String) (cx : ExprCtx) (l2 : Nat) (CL : List String), st.code_lines = CL →
    (Expr.name id cx l2) ∈ targets →
    (id, lineno, lineAt CL lineno) ∈
      (targets.foldl (fun acc t =>
        match t with
        | .name id _ _ =>
            { acc with depVariables := setAdd acc.depVariables id,
                       linesVariables := acc.linesVariables ++
                         [(id, lineno, lineAt acc.code_lines lineno)] }
        | _ => acc) st).linesVariables
  | [], _, _, _, _, _, _, h => absurd h (by simp)
  | t :: ts, st, id, cx, l2, CL, hCL, h => by
      rw [List.foldl_cons]
      rcases List.mem_cons.mp h with heq | hmem
      · subst heq
        subst hCL
        obtain ⟨suffix, hs⟩ := assignFold_extends lineno ts
          { st with depVariables := setAdd st.depVariables id,
                    linesVariables := st.linesVariables ++
                      [(id, lineno, lineAt st.code_lines lineno)] }
        dsimp only
        rw [hs]
        simp
      · refine assignFold_mem_vars lineno ts _ id cx l2 CL ?_ hmem
        rcases t with ⟨i3, c3, l3⟩ | ⟨v3, a3, l3⟩ | ⟨f3, a3, l3⟩ | ⟨l3⟩ <;> exact hCL

theorem visitExpr_linesVar_mono (st : AState) (e : Expr) {x : Record}
    (hx : x ∈ st.linesVariables) : x ∈ (visitExpr st e).linesVariables := by
  obtain ⟨t, ht⟩ := visitExpr_linesVar_extend st e
  rw [ht]
  exact List.mem_append_left _ hx

theorem visitExprList_linesVar_mono (st : AState) (es : List Expr) {x : Record}
    (hx : x ∈ st.linesVariables) : x ∈ (visitExprList st es).linesVariables := by
  obtain ⟨t, ht⟩ := visitExprList_linesVar_extend st es
  rw [ht]
  exact List.mem_append_left _ hx

/-- Claim C4 (amended): the Global Definition Table is driven by the scope
flag alone.  An assignment visited in target scope never populates the table,
and records each simple-name target as a variable-reference record instead.
An assignment visited outside target scope updates the table via its first
target — and this includes assignments nested inside OTHER functions' bodies,
because visiting a non-target function definition does not set the scope
flag (see `c4_nested_assign_populates`). -/
theorem c4_target_scope_table :
    (∀ (st : AState) (targets : List Expr) (value : Expr) (lineno : Nat),
        inTarget st = true →
        (visitStmt st (.assign targets value lineno)).global_definitions =
          st.global_definitions) ∧
    (∀ (st : AState) (targets : List Expr) (value : Expr) (lineno : Nat)
        (id : String) (cx : ExprCtx) (l2 : Nat), inTarget st = true →
        (Expr.name id cx l2) ∈ targets →
        (id, lineno, lineAt st.code_lines lineno) ∈
          (visitStmt st (.assign targets value lineno)).linesVariables) := by
  constructor
  · intro st targets value lineno h
    rcases targets with _ | ⟨t, ts⟩
    · rw [visitStmt, (visitExpr_preserved _ _).2.2.2.1, (visitExprList_preserved _ _).2.2.2.1,
        if_pos (by simp [h])] <;>
      first
        | exact assignFold_gdefs lineno _ st
        | simp
    · rcases t with ⟨i3, c3, l3⟩ | ⟨v3, a3, l3⟩ | ⟨f3, a3, l3⟩ | ⟨l3⟩ <;>
        rw [visitStmt, (visitExpr_preserved _ _).2.2.2.1, (visitExprList_preserved _ _).2.2.2.1,
          if_pos (by simp [h])] <;>
        first
          | exact assignFold_gdefs lineno _ st
          | simp
  · intro st targets value lineno id cx l2 h hmem
    rcases targets with _ | ⟨t, ts⟩
    · exact absurd hmem (by simp)
    · rcases t with ⟨i3, c3, l3⟩ | ⟨v3, a3, l3⟩ | ⟨f3, a3, l3⟩ | ⟨l3⟩ <;>
        rw [visitStmt, if_pos (by simp [h])] <;>
        first
          | (refine visitExpr_linesVar_mono _ _ (visitExprList_linesVar_mono _ _ ?_)
             exact assignFold_mem_vars lineno _ st id cx l2 st.code_lines rfl hmem)
          | simp

/-- Witness for C4 (amended): in target scope, `x = 1` leaves the table empty
and records the variable reference instead. -/
theorem c4_target_scope_table_witness :
    (visitStmt { target_function := "f", code_lines := ["x = 1"], current_function := some "f" }
        (.assign [.name "x" .store 1] (.constant 1) 1)).global_definitions = [] ∧
    ("x", 1, "x = 1") ∈
      (visitStmt { target_function := "f", code_lines := ["x = 1"], current_function := some "f" }
        (.assign [.name "x" .store 1] (.constant 1) 1)).linesVariables :=
  ⟨c4_target_scope_table.1 _ _ _ _ rfl,
   c4_target_scope_table.2 _ [.name "x" .store 1] (.constant 1) 1 "x" .store 1 rfl (by simp)⟩

/-- Unit text whose only assignment is nested inside a non-target function. -/
def helperCode : String := "def helper():\n    x = 1"

/-- Syntax tree of `helperCode`. -/
def helperMod : Module :=
  [.functionDef "helper" [.assign [.name "x" .store 2] (.constant 2) 2] 1 (some 2)]

/-- Parser for the nested-assignment corpus. -/
def helperParse : PyParse := fun s =>
  if s = helperCode then .ok helperMod else .error (.parseError "<unknown>")

/-- Counterexample to Claim C4 as stated: analysing `helperCode` for target
`f` puts `x` into the Global Definition Table even though its assignment is
nested inside the body of the function `helper` — visiting a non-target
function definition leaves `current_function` unset, so its body is analysed
as if at top level. -/
theorem c4_nested_assign_populates :
    (match analyze helperParse "f" helperCode with
     | .ok st => st.global_definitions
     | .error _ => []) = [("x", 1)] := rfl

/-! ### The record-text invariant (every record stores its own source line) -/

/-- All records in `l` store exactly the physical line of `cl` at their
1-indexed line number. -/
def listTextOK (cl : List String) (l : List Record) : Prop :=
  ∀ r ∈ l, r.2.2 = lineAt cl r.2.1

/-- Every dependency record held by the analyzer state, in every category,
stores the physical source line at its recorded line number. -/
def textInv (st : AState) : Prop :=
  listTextOK st.code_lines st.linesFunctions ∧ listTextOK st.code_lines st.linesMethods ∧
  listTextOK st.code_lines st.linesClasses ∧ listTextOK st.code_lines st.linesVariables ∧
  listTextOK st.code_lines st.linesGlobals ∧ listTextOK st.code_lines st.linesImports ∧
  listTextOK st.code_lines st.linesObjects

theorem listTextOK_append {cl : List String} {l : List Record} (h : listTextOK cl l)
    {r : Record} (hr : r.2.2 = lineAt cl r.2.1) : listTextOK cl (l ++ [r]) := by
  intro x hx
  rcases List.mem_append.mp hx with hx | hx
  · exact h x hx
  · rw [List.mem_singleton] at hx
    subst hx
    exact hr

mutual

theorem visitExpr_textInv (st : AState) : (e : Expr) → textInv st → textInv (visitExpr st e)
  | .name id ctx lineno, h => by
      simp only [visitExpr]
      split
      · split
        · obtain ⟨h1, h2, h3, h4, h5, h6, h7⟩ := h
          split
          · exact ⟨h1, h2, h3, listTextOK_append h4 rfl, h5, h6, h7⟩
          · exact ⟨h1, h2, h3, listTextOK_append h4 rfl, h5, h6, h7⟩
        · exact h
      · exact h
  | .attribute v a l, h => visitExpr_textInv st v h
  | .call (.name id cx l2) args lineno, h => by
      rw [visitExpr]
      refine visitExprList_textInv _ args (visitExpr_textInv _ _ ?_)
      split
      · obtain ⟨h1, h2, h3, h4, h5, h6, h7⟩ := h
        exact ⟨listTextOK_append h1 rfl, h2, h3, h4, h5, h6, h7⟩
      · exact h
  | .call (.attribute v a2 l2) args lineno, h => by
      rw [visitExpr]
      refine visitExprList_textInv _ args (visitExpr_textInv _ _ ?_)
      obtain ⟨h1, h2, h3, h4, h5, h6, h7⟩ := h
      exact ⟨h1, listTextOK_append h2 rfl, h3, h4, h5, h6, h7⟩
  | .call (.call f2 a2 l2) args lineno, h => by
      rw [visitExpr]
      · exact visitExprList_textInv _ args (visitExpr_textInv _ _ h)
      · simp
      · simp
  | .call (.constant l2) args lineno, h => by
      rw [visitExpr]
      · exact visitExprList_textInv _ args (visitExpr_textInv _ _ h)
      · simp
      · simp
  | .constant _, h => h

theorem visitExprList_textInv (st : AState) : (es : List Expr) → textInv st →
    textInv (visitExprList st es)
  | [], h => h
  | e :: es, h => by
      rw [visitExprList]
      exact visitExprList_textInv _ es (visitExpr_textInv _ e h)

end

mutual

theorem visitStmt_textInv (st : AState) : (s : Stmt) → textInv st → textInv (visitStmt st s)
  | .importStmt names lineno, h => by
      rw [visitStmt]
      revert h
      induction names generalizing st with
      | nil => exact fun h => h
      | cons nm ns ih =>
          intro h
          rw [List.foldl_cons]
          refine ih _ ?_
          obtain ⟨h1, h2, h3, h4, h5, h6, h7⟩ := h
          exact ⟨h1, h2, h3, h4, h5, listTextOK_append h6 rfl, h7⟩
  | .importFrom module names lineno, h => by
      rw [visitStmt]
      revert h
      induction names generalizing st with
      | nil => exact fun h => h
      | cons nm ns ih =>
          intro h
          rw [List.foldl_cons]
          refine ih _ ?_
          obtain ⟨h1, h2, h3, h4, h5, h6, h7⟩ := h
          exact ⟨h1, h2, h3, h4, h5, listTextOK_append h6 rfl, h7⟩
  | .functionDef name body lineno end_lineno, h => by
      rw [visitStmt]
      split
      · exact visitStmtList_textInv _ body h
      · refine visitStmtList_textInv _ body ?_
        obtain ⟨h1, h2, h3, h4, h5, h6, h7⟩ := h
        exact ⟨listTextOK_append h1 rfl, h2, h3, h4, h5, h6, h7⟩
  | .classDef name body lineno, h => by
      rw [visitStmt]
      refine visitStmtList_textInv _ body ?_
      obtain ⟨h1, h2, h3, h4, h5, h6, h7⟩ := h
      exact ⟨h1, h2, listTextOK_append h3 rfl, h4, h5, h6, h7⟩
  | .assign targets value lineno, h => by
      refine visitExpr_textInv _ value (visitExprList_textInv _ targets ?_)
      by_cases hsc : inTarget st = true
      · rw [if_pos hsc]
        clear hsc
        revert h
        induction targets generalizing st with
        | nil => exact fun h => h
        | cons t ts ih =>
            intro h
            rw [List.foldl_cons]
            refine ih _ ?_
            rcases t with ⟨i3, c3, l3⟩ | ⟨v3, a3, l3⟩ | ⟨f3, a3, l3⟩ | ⟨l3⟩
            · obtain ⟨h1, h2, h3, h4, h5, h6, h7⟩ := h
              exact ⟨h1, h2, h3, listTextOK_append h4 rfl, h5, h6, h7⟩
            · exact h
            · exact h
            · exact h
      · rw [if_neg hsc]
        rcases targets with _ | ⟨t, ts⟩
        · exact h
        · rcases t with ⟨i3, c3, l3⟩ | ⟨v3, a3, l3⟩ | ⟨f3, a3, l3⟩ | ⟨l3⟩ <;> exact h
  | .globalStmt names lineno, h => by
      rw [visitStmt]
      revert h
      induction names generalizing st with
      | nil => exact fun h => h
      | cons nm ns ih =>
          intro h
          rw [List.foldl_cons]
          refine ih _ ?_
          obtain ⟨h1, h2, h3, h4, h5, h6, h7⟩ := h
          exact ⟨h1, h2, h3, h4, listTextOK_append h5 rfl, h6, h7⟩
  | .exprStmt (.call (.name id cx l2) cargs l3) lineno, h => by
      rw [visitStmt]
      refine visitExpr_textInv _ _ ?_
      obtain ⟨h1, h2, h3, h4, h5, h6, h7⟩ := h
      exact ⟨h1, h2, h3, h4, h5, h6, listTextOK_append h7 rfl⟩
  | .exprStmt (.call (.attribute v3 a3 l4) cargs l3) lineno, h => by
      rw [visitStmt] <;> first | exact visitExpr_textInv _ _ h | simp
  | .exprStmt (.call (.call f3 a3 l4) cargs l3) lineno, h => by
      rw [visitStmt] <;> first | exact visitExpr_textInv _ _ h | simp
  | .exprStmt (.call (.constant l4) cargs l3) lineno, h => by
      rw [visitStmt] <;> first | exact visitExpr_textInv _ _ h | simp
  | .exprStmt (.name id3 cx3 l3) lineno, h => by
      rw [visitStmt] <;> first | exact visitExpr_textInv _ _ h | simp
  | .exprStmt (.attribute v3 a3 l3) lineno, h => by
      rw [visitStmt] <;> first | exact visitExpr_textInv _ _ h | simp
  | .exprStmt (.constant l3) lineno, h => by
      rw [visitStmt] <;> first | exact visitExpr_textInv _ _ h | simp
  | .ret (some e) lineno, h => by
      rw [visitStmt]
      exact visitExpr_textInv _ e h
  | .ret none lineno, h => h
  | .pass _, h => h

theorem visitStmtList_textInv (st : AState) : (ss : List Stmt) → textInv st →
    textInv (visitStmtList st ss)
  | [], h => h
  | s :: ss, h => by
      rw [visitStmtList]
      exact visitStmtList_textInv _ ss (visitStmt_textInv _ s h)

end

theorem textInv_initState (target code : String) : textInv (initState target code) := by
  refine ⟨?_, ?_, ?_, ?_, ?_, ?_, ?_⟩ <;> intro r hr <;> simp [initState] at hr

theorem textInv_allCategory {st : AState} (h : textInv st) :
    ∀ r ∈ allCategoryLines st, r.2.2 = lineAt st.code_lines r.2.1 := by
  obtain ⟨h1, h2, h3, h4, h5, h6, h7⟩ := h
  intro r hr
  simp only [allCategoryLines, List.mem_append] at hr
  rcases hr with ((((((hr | hr) | hr) | hr) | hr) | hr) | hr)
  exacts [h1 r hr, h2 r hr, h3 r hr, h4 r hr, h5 r hr, h6 r hr, h7 r hr]

/-- Claim C9: every dependency record `(name, line number, text)` produced by
any Analyzer visitor stores as text exactly the physical source line of the
analyzed unit at that 1-indexed line number (`code_lines[lineno - 1]`,
modelled by `lineAt`); visiting any statement preserves this invariant, and
the records of any completed analysis satisfy it. -/
theorem c9_record_text_inv :
    (∀ (st : AState) (s : Stmt), textInv st → textInv (visitStmt st s)) ∧
    (∀ (parse : PyParse) (target code : String) (st : AState),
        analyze parse target code = .ok st →
        ∀ r ∈ allCategoryLines st, r.2.2 = lineAt st.code_lines r.2.1) := by
  refine ⟨visitStmt_textInv, fun parse target code st h => ?_⟩
  rcases hx : parse (joinWith "\n" (pySplitlines code)) with e | m
  · rw [analyze, hx] at h
    exact absurd h (by simp [Except.map])
  · rw [analyze, hx] at h
    have hst : visitStmtList (initState target code) m = st := by
      simpa [Except.map] using h
    rw [← hst]
    exact textInv_allCategory (visitStmtList_textInv _ m (textInv_initState target code))

/-- Witness for C9 at the missing-import corpus: the import record for `os`
stores exactly line 1 of the unit. -/
theorem c9_record_text_inv_witness :
    "import os" = lineAt (visitStmtList (initState "f" osCode) osMod).code_lines 1 :=
  c9_record_text_inv.2 osParse "f" osCode _ rfl ("os", 1, "import os") (by decide)

/-! ### Termination of the closure computation -/

theorem mem_foldl_setAdd : ∀ (l : List String) (init : List String) (x : String),
    x ∈ l.foldl setAdd init → x ∈ init ∨ x ∈ l
  | [], _, _, h => Or.inl h
  | a :: l, init, x, h => by
      rw [List.foldl_cons] at h
      rcases mem_foldl_setAdd l (setAdd init a) x h with h2 | h2
      · by_cases ha : a ∈ init
        · rw [setAdd, if_pos ha] at h2
          exact Or.inl h2
        · rw [setAdd, if_neg ha] at h2
          rcases List.mem_append.mp h2 with h3 | h3
          · exact Or.inl h3
          · rw [List.mem_singleton] at h3
            exact Or.inr (h3 ▸ List.mem_cons_self a l)
      · exact Or.inr (List.mem_cons_of_mem a h2)

mutual

theorem visitStmt_depImports (st : AState) : (s : Stmt) →
    (visitStmt st s).depImports = (stmtImportNames s).foldl setAdd st.depImports
  | .importStmt names lineno => by
      rw [visitStmt, stmtImportNames]
      induction names generalizing st with
      | nil => rfl
      | cons nm ns ih => rw [List.foldl_cons, List.foldl_cons]; exact ih _
  | .importFrom module names lineno => by
      rw [visitStmt, stmtImportNames]
      induction names generalizing st with
      | nil => rfl
      | cons nm ns ih =>
          rw [List.foldl_cons, List.map_cons, List.foldl_cons]
          exact ih _
  | .functionDef name body lineno end_lineno => by
      rw [visitStmt, stmtImportNames]
      split
      · exact visitStmtList_depImports _ body
      · rw [visitStmtList_depImports _ body]
  | .classDef name body lineno => by
      rw [visitStmt, stmtImportNames]
      exact visitStmtList_depImports _ body
  | .assign targets value lineno => by
      show (visitExpr _ value).depImports = _
      rw [(visitExpr_preserved _ _).2.2.2.2.2.1, (visitExprList_preserved _ _).2.2.2.2.2.1]
      show _ = st.depImports
      by_cases hsc : inTarget st = true
      · rw [if_pos hsc]
        clear hsc
        induction targets generalizing st with
        | nil => rfl
        | cons t ts ih =>
            rw [List.foldl_cons, ih]
            rcases t with ⟨i3, c3, l3⟩ | ⟨v3, a3, l3⟩ | ⟨f3, a3, l3⟩ | ⟨l3⟩ <;> rfl
      · rw [if_neg hsc]
        rcases targets with _ | ⟨t, ts⟩
        · rfl
        · rcases t with ⟨i3, c3, l3⟩ | ⟨v3, a3, l3⟩ | ⟨f3, a3, l3⟩ | ⟨l3⟩ <;> rfl
  | .globalStmt names lineno => by
      rw [visitStmt]
      show _ = st.depImports
      induction names generalizing st with
      | nil => rfl
      | cons nm ns ih => rw [List.foldl_cons, ih]
  | .exprStmt value lineno => by
      show (visitExpr _ value).depImports = _
      rw [(visitExpr_preserved _ _).2.2.2.2.2.1]
      rcases value with ⟨i3, c3, l3⟩ | ⟨v3, a3, l3⟩ | ⟨f3, a3, l3⟩ | ⟨l3⟩
      · rfl
      · rfl
      · rcases f3 with ⟨i4, c4, l4⟩ | ⟨v4, a4, l4⟩ | ⟨f4, a4, l4⟩ | ⟨l4⟩ <;> rfl
      · rfl
  | .ret (some e) lineno => (visitExpr_preserved st e).2.2.2.2.2.1
  | .ret none lineno => rfl
  | .pass _ => rfl

theorem visitStmtList_depImports (st : AState) : (ss : List Stmt) →
    (visitStmtList st ss).depImports = (stmtListImportNames ss).foldl setAdd st.depImports
  | [] => rfl
  | s :: ss => by
      rw [visitStmtList, stmtListImportNames, List.foldl_append,
        visitStmtList_depImports _ ss, visitStmt_depImports st s]

end

theorem find_target_file_mem (parse : PyParse) (target : String) :
    ∀ (files : List (String × String)) (p c : String),
      find_target_file parse target files = .ok (some (p, c)) → (p, c) ∈ files
  | [], p, c, h => by simp [find_target_file] at h
  | (p0, c0) :: rest, p, c, h => by
      rw [find_target_file] at h
      split at h
      · exact absurd h (by simp)
      · split at h
        · obtain ⟨rfl, rfl⟩ : p0 = p ∧ c0 = c := by simpa using h
          exact List.mem_cons_self _ _
        · exact List.mem_cons_of_mem _ (find_target_file_mem parse target rest p c h)

/-- Every candidate name the Closure Driver can recurse on, from a unit found
in the corpus, is in `filesCandidates`. -/
theorem candidate_mem_filesCandidates (parse : PyParse) (files : List (String × String))
    (p c : String) (hmem : (p, c) ∈ files) (target : String) (ast : AState)
    (hana : analyze parse target c = .ok ast) (dep : String) (hdep : dep ∈ ast.depImports)
    (func : String) (hfunc : driverCandidate dep = .ok func) :
    func ∈ filesCandidates parse files := by
  rcases hx : parse (joinWith "\n" (pySplitlines c)) with e | m
  · rw [analyze, hx] at hana
    exact absurd hana (by simp [Except.map])
  · rw [analyze, hx] at hana
    have hst : visitStmtList (initState target c) m = ast := by
      simpa [Except.map] using hana
    have himp : dep ∈ stmtListImportNames m := by
      rw [← hst, visitStmtList_depImports] at hdep
      rcases mem_foldl_setAdd _ _ _ hdep with h2 | h2
      · exact absurd h2 (by simp [initState])
      · exact h2
    refine List.mem_flatMap.mpr ⟨(p, c), hmem, ?_⟩
    rw [hx]
    exact List.mem_filterMap.mpr ⟨dep, himp, by rw [candidateOf, hfunc]; rfl⟩

theorem processImports_subset
    (recCall : String → List String → Option (Except PyErr (String × List String)))
    (hrec : ∀ t P r, recCall t P = some (.ok r) → P ⊆ r.2) :
    ∀ (deps : List String) (snippet : String) (P : List String) (r : String × List String),
      processImports recCall deps snippet P = some (.ok r) → P ⊆ r.2
  | [], snippet, P, r, h => by
      obtain ⟨-, h2⟩ : snippet = r.1 ∧ P = r.2 := by
        rcases r with ⟨s2, P2⟩
        simpa [processImports] using h
      exact h2 ▸ fun x hx => hx
  | dep :: deps, snippet, P, r, h => by
      simp only [processImports] at h
      split at h
      · exact absurd h (by simp)
      · split at h
        · exact absurd h (by simp)
        · exact absurd h (by simp)
        · rename_i sub P2 heq
          exact fun x hx =>
            processImports_subset recCall hrec deps _ _ _ h (hrec _ _ _ heq hx)

theorem process_subset : ∀ (fuel : Nat) (parse : PyParse) (files : List (String × String))
    (t : String) (P : List String) (r : String × List String),
    process_dependencies parse files fuel t P = some (.ok r) → P ⊆ r.2
  | 0, _, _, _, _, _, h => absurd h (by simp [process_dependencies])
  | fuel + 1, parse, files, t, P, r, h => by
      rw [process_dependencies] at h
      by_cases ht : t ∈ P
      · rw [if_pos ht] at h
        obtain ⟨-, h2⟩ : "" = r.1 ∧ P = r.2 := by
          rcases r with ⟨s2, P2⟩
          simpa using h
        exact h2 ▸ fun x hx => hx
      · rw [if_neg ht] at h
        split at h
        · exact absurd h (by simp)
        · obtain ⟨-, h2⟩ : "" = r.1 ∧ P ++ [t] = r.2 := by
            rcases r with ⟨s2, P2⟩
            simpa using h
          exact fun x hx => h2 ▸ List.mem_append_left _ hx
        · split at h
          · exact absurd h (by simp)
          · exact fun x hx =>
              processImports_subset _
                (fun t' P' r' h' => process_subset fuel parse files t' P' r' h') _ _ _ _ h
                (List.mem_append_left _ hx)

/-- With the computable fuel bound, the modelled recursion never exhausts its
fuel: the fuel counter is a model artefact only, and the Python recursion
terminates on every corpus.  The bound works because every recursive call is
on a candidate name of the corpus and strictly grows the processed set. -/
theorem process_no_fuel_exhaustion (parse : PyParse) (files : List (String × String)) :
    ∀ (fuel : Nat),
    (∀ (t : String) (P : List String),
      ((insert t (filesCandidates parse files).toFinset) \ P.toFinset).card < fuel →
      process_dependencies parse files fuel t P ≠ none) ∧
    (∀ (deps : List String) (snippet : String) (P : List String),
      (∀ dep ∈ deps, ∀ func, driverCandidate dep = .ok func →
        func ∈ filesCandidates parse files) →
      ((filesCandidates parse files).toFinset \ P.toFinset).card < fuel →
      processImports (fun t p => process_dependencies parse files fuel t p) deps snippet P ≠
        none) := by
  intro fuel
  induction fuel with
  | zero =>
      exact ⟨fun t P h => absurd h (Nat.not_lt_zero _),
        fun deps snippet P _ h => absurd h (Nat.not_lt_zero _)⟩
  | succ fuel ih =>
      have hS : ∀ (t : String) (P : List String),
          ((insert t (filesCandidates parse files).toFinset) \ P.toFinset).card < fuel + 1 →
          process_dependencies parse files (fuel + 1) t P ≠ none := by
        intro t P hm
        rw [process_dependencies]
        by_cases ht : t ∈ P
        · rw [if_pos ht]
          simp
        · rw [if_neg ht]
          split
          · simp
          · simp
          · split
            · simp
            · rename_i fst c heqfind x2 ast heqana
              refine ih.2 ast.depImports _ (P ++ [t]) ?_ ?_
              · intro dep hdep func hfunc
                exact candidate_mem_filesCandidates parse files _ c
                  (find_target_file_mem parse t files _ c heqfind) t ast heqana dep hdep
                  func hfunc
              · have htP : (P ++ [t]).toFinset = insert t P.toFinset := by
                  ext x
                  simp [or_comm]
                have hmem_t : t ∈ insert t (filesCandidates parse files).toFinset \ P.toFinset :=
                  Finset.mem_sdiff.mpr ⟨Finset.mem_insert_self t _, by simpa using ht⟩
                have hsub2 : (filesCandidates parse files).toFinset \ insert t P.toFinset ⊆
                    (insert t (filesCandidates parse files).toFinset \ P.toFinset).erase t := by
                  intro x hx
                  simp only [Finset.mem_sdiff, Finset.mem_insert, Finset.mem_erase,
                    not_or] at hx ⊢
                  exact ⟨hx.2.1, Or.inr hx.1, hx.2.2⟩
                have hcard1 := Finset.card_le_card hsub2
                have hcard2 := Finset.card_erase_of_mem hmem_t
                have hpos : 0 < (insert t (filesCandidates parse files).toFinset \
                    P.toFinset).card := Finset.card_pos.mpr ⟨t, hmem_t⟩
                rw [htP]
                omega
      refine ⟨hS, ?_⟩
      intro deps snippet P hdeps hcard
      induction deps generalizing snippet P with
      | nil => simp [processImports]
      | cons dep deps ihdeps =>
          rw [processImports]
          split
          · simp
          · rename_i func hfunc
            split
            · rename_i heq
              exact absurd heq (hS func P (by
                have hU : func ∈ (filesCandidates parse files).toFinset :=
                  List.mem_toFinset.mpr (hdeps dep (List.mem_cons_self dep deps) func hfunc)
                rwa [Finset.insert_eq_self.mpr hU]))
            · simp
            · rename_i sub P2 heq
              refine ihdeps _ _ (fun d hd f hf => hdeps d (List.mem_cons_of_mem _ hd) f hf) ?_
              have hsub : P ⊆ P2 := process_subset (fuel + 1) parse files func P (sub, P2) heq
              have hF : P.toFinset ⊆ P2.toFinset := fun x hx =>
                List.mem_toFinset.mpr (hsub (List.mem_toFinset.mp hx))
              have := Finset.card_le_card
                (Finset.sdiff_subset_sdiff
                  (Finset.Subset.refl (filesCandidates parse files).toFinset) hF)
              omega

/-- The computable fuel bound `processFuel` always suffices: termination of
`process_dependencies` on every corpus, target and processed set. -/
theorem process_fuel_enough (parse : PyParse) (files : List (String × String))
    (t : String) (P : List String) :
    process_dependencies parse files (processFuel parse files t P) t P ≠ none :=
  (process_no_fuel_exhaustion parse files _).1 t P (by rw [processFuel]; omega)

/-- Claim C1: (i) the closure computation terminates on every corpus (the
computable fuel bound always suffices, so in particular it terminates on
mutual-import cycles); (ii) a call whose target is already in the processed
set returns the empty string immediately, without analyzing any unit — the
result does not depend on the corpus at all; (iii) on any two-unit corpus in
which two functions `f` and `g` defined in different units import each other,
the result is exactly one copy of `f`'s unit snippet followed by one copy of
`g`'s unit snippet (each assembled once, with its header), and each function
is processed exactly once (`processed = [f, g]`) — so each function's body
lines appear exactly once in the returned snippet. -/
theorem c1_cycle_termination :
    (∀ (parse : PyParse) (files : List (String × String)) (t : String) (P : List String),
        process_dependencies parse files (processFuel parse files t P) t P ≠ none) ∧
    (∀ (parse : PyParse) (files : List (String × String)) (fuel : Nat) (t : String)
        (P : List String), t ∈ P →
        process_dependencies parse files (fuel + 1) t P = some (.ok ("", P))) ∧
    (∀ (parse : PyParse) (p1 c1 p2 c2 f g dep1 dep2 : String) (mod1 mod2 : Module)
        (ast1 ast2 : AState),
        parse c1 = .ok mod1 → parse c2 = .ok mod2 →
        moduleHasFuncDef mod1 f = true → moduleHasFuncDef mod1 g = false →
        moduleHasFuncDef mod2 g = true →
        analyze parse f c1 = .ok ast1 → analyze parse g c2 = .ok ast2 →
        ast1.depImports = [dep1] → ast2.depImports = [dep2] →
        driverCandidate dep1 = .ok g → driverCandidate dep2 = .ok f →
        f ≠ g →
        process_dependencies parse [(p1, c1), (p2, c2)] 3 f [] =
          some (.ok (output_code_snippet ⟨f, c1, ast1⟩ ++
            (("\n\n# Dependencies from " ++ dep1 ++ ":\n") ++
              (output_code_snippet ⟨g, c2, ast2⟩ ++
                (("\n\n# Dependencies from " ++ dep2 ++ ":\n") ++ ""))), [f, g]))) := by
  refine ⟨process_fuel_enough, fun parse files fuel t P ht => ?_, ?_⟩
  · rw [process_dependencies, if_pos ht]
  · intro parse p1 c1 p2 c2 f g dep1 dep2 mod1 mod2 ast1 ast2 hp1 hp2 hf1 hg1 hg2
      hana1 hana2 himp1 himp2 hcand1 hcand2 hne
    have hfind_f : find_target_file parse f [(p1, c1), (p2, c2)] = .ok (some (p1, c1)) := by
      simp [find_target_file, hp1, hf1]
    have hfind_g : find_target_file parse g [(p1, c1), (p2, c2)] = .ok (some (p2, c2)) := by
      simp [find_target_file, hp1, hp2, hg1, hg2]
    have h1 : process_dependencies parse [(p1, c1), (p2, c2)] 1 f [f, g] =
        some (.ok ("", [f, g])) := by
      rw [process_dependencies, if_pos (List.mem_cons_self f [g])]
    have h2 : process_dependencies parse [(p1, c1), (p2, c2)] 2 g [f] =
        some (.ok (output_code_snippet ⟨g, c2, ast2⟩ ++
          (("\n\n# Dependencies from " ++ dep2 ++ ":\n") ++ ""), [f, g])) := by
      rw [process_dependencies, if_neg (by simp [Ne.symm hne])]
      simp only [hfind_g, hana2, himp2, List.cons_append, List.nil_append]
      simp only [processImports, hcand2, h1]
    rw [process_dependencies, if_neg (by simp)]
    simp only [hfind_f, hana1, himp1, List.nil_append]
    simp only [processImports, hcand1, h2]

/-- Witness for C1 at the concrete mutual-import corpus `cycFiles`: the
closure terminates and produces each unit's snippet exactly once. -/
theorem c1_cycle_termination_witness :
    process_dependencies cycParse cycFiles 3 "f" [] =
      some (.ok (output_code_snippet ⟨"f", cycCodeA, visitStmtList (initState "f" cycCodeA) cycModA⟩ ++
        (("\n\n# Dependencies from " ++ "fileB.g" ++ ":\n") ++
          (output_code_snippet ⟨"g", cycCodeB, visitStmtList (initState "g" cycCodeB) cycModB⟩ ++
            (("\n\n# Dependencies from " ++ "fileA.f" ++ ":\n") ++ ""))), ["f", "g"])) :=
  c1_cycle_termination.2.2 cycParse "fileA.py" cycCodeA "fileB.py" cycCodeB "f" "g"
    "fileB.g" "fileA.f" cycModA cycModB
    (visitStmtList (initState "f" cycCodeA) cycModA)
    (visitStmtList (initState "g" cycCodeB) cycModB)
    rfl rfl rfl rfl rfl rfl rfl rfl rfl rfl rfl (by decide)

/-! ### Line-number bounds of the records produced inside one function span -/

mutual

/-- Every line number occurring in the expression lies in `[lo, hi]`. -/
def exprWithin (lo hi : Nat) : Expr → Bool
  | .name _ _ l => decide (lo ≤ l) && decide (l ≤ hi)
  | .attribute v _ l => decide (lo ≤ l) && decide (l ≤ hi) && exprWithin lo hi v
  | .call f args l =>
      decide (lo ≤ l) && decide (l ≤ hi) && exprWithin lo hi f && exprListWithin lo hi args
  | .constant l => decide (lo ≤ l) && decide (l ≤ hi)

def exprListWithin (lo hi : Nat) : List Expr → Bool
  | [] => true
  | e :: es => exprWithin lo hi e && exprListWithin lo hi es

end

mutual

/-- Every line number occurring in the statement (including nested bodies and
`end_lineno` fields) lies in `[lo, hi]`. -/
def stmtWithin (lo hi : Nat) : Stmt → Bool
  | .importStmt _ l => decide (lo ≤ l) && decide (l ≤ hi)
  | .importFrom _ _ l => decide (lo ≤ l) && decide (l ≤ hi)
  | .functionDef _ body l e2 =>
      decide (lo ≤ l) && decide (l ≤ hi) &&
        (match e2 with
         | some e3 => decide (lo ≤ e3) && decide (e3 ≤ hi)
         | none => true) && stmtListWithin lo hi body
  | .classDef _ body l => decide (lo ≤ l) && decide (l ≤ hi) && stmtListWithin lo hi body
  | .assign targets value l =>
      decide (lo ≤ l) && decide (l ≤ hi) && exprListWithin lo hi targets &&
        exprWithin lo hi value
  | .globalStmt _ l => decide (lo ≤ l) && decide (l ≤ hi)
  | .exprStmt v l => decide (lo ≤ l) && decide (l ≤ hi) && exprWithin lo hi v
  | .ret (some v) l => decide (lo ≤ l) && decide (l ≤ hi) && exprWithin lo hi v
  | .ret none l => decide (lo ≤ l) && decide (l ≤ hi)
  | .pass l => decide (lo ≤ l) && decide (l ≤ hi)

def stmtListWithin (lo hi : Nat) : List Stmt → Bool
  | [] => true
  | s :: ss => stmtWithin lo hi s && stmtListWithin lo hi ss

end

theorem mem_foldl_setAddNat : ∀ (l : List Nat) (init : List Nat) (x : Nat),
    x ∈ l.foldl setAddNat init → x ∈ init ∨ x ∈ l
  | [], _, _, h => Or.inl h
  | a :: l, init, x, h => by
      rw [List.foldl_cons] at h
      rcases mem_foldl_setAddNat l (setAddNat init a) x h with h2 | h2
      · by_cases ha : a ∈ init
        · rw [setAddNat, if_pos ha] at h2
          exact Or.inl h2
        · rw [setAddNat, if_neg ha] at h2
          rcases List.mem_append.mp h2 with h3 | h3
          · exact Or.inl h3
          · rw [List.mem_singleton] at h3
            exact Or.inr (h3 ▸ List.mem_cons_self a l)
      · exact Or.inr (List.mem_cons_of_mem a h2)

theorem mem_foldl_setAddNat_of_mem : ∀ (l : List Nat) (init : List Nat) (x : Nat),
    x ∈ init ∨ x ∈ l → x ∈ l.foldl setAddNat init
  | [], _, _, h => h.resolve_right (by simp)
  | a :: l, init, x, h => by
      rw [List.foldl_cons]
      refine mem_foldl_setAddNat_of_mem l (setAddNat init a) x ?_
      rcases h with h | h
      · left
        rw [setAddNat]
        split
        · exact h
        · exact List.mem_append_left _ h
      · rcases List.mem_cons.mp h with rfl | h
        · left
          rw [setAddNat]
          split
          · assumption
          · exact List.mem_append_right _ (List.mem_singleton.mpr rfl)
        · exact Or.inr h

/-- Constant analyzer fields and growth of the target span under statement
visits: the code lines and the target name never change, and recorded target
span lines are never removed. -/
def stmtBase (st st' : AState) : Prop :=
  st'.code_lines = st.code_lines ∧ st'.target_function = st.target_function ∧
    ∀ x ∈ st.target_function_lines, x ∈ st'.target_function_lines

theorem stmtBase_refl (st : AState) : stmtBase st st := ⟨rfl, rfl, fun _ hx => hx⟩

theorem stmtBase_trans {a b c : AState} (h1 : stmtBase a b) (h2 : stmtBase b c) :
    stmtBase a c :=
  ⟨h2.1.trans h1.1, h2.2.1.trans h1.2.1, fun x hx => h2.2.2 x (h1.2.2 x hx)⟩

theorem exprPreserved_stmtBase {a b : AState} (h : exprPreserved a b) : stmtBase a b :=
  ⟨h.2.1, h.1, fun _ hx => h.2.2.2.2.1 ▸ hx⟩

mutual

theorem visitStmt_base (st : AState) : (s : Stmt) → stmtBase st (visitStmt st s)
  | .importStmt names lineno => by
      rw [visitStmt]
      induction names generalizing st with
      | nil => exact stmtBase_refl st
      | cons nm ns ih =>
          rw [List.foldl_cons]
          exact stmtBase_trans ⟨rfl, rfl, fun x hx => hx⟩ (ih _)
  | .importFrom module names lineno => by
      rw [visitStmt]
      induction names generalizing st with
      | nil => exact stmtBase_refl st
      | cons nm ns ih =>
          rw [List.foldl_cons]
          exact stmtBase_trans ⟨rfl, rfl, fun x hx => hx⟩ (ih _)
  | .functionDef name body lineno end_lineno => by
      rw [visitStmt]
      split
      · refine stmtBase_trans (stmtBase_trans ?_ (visitStmtList_base _ body))
          ⟨rfl, rfl, fun x hx => hx⟩
        exact ⟨rfl, rfl, fun x hx => mem_foldl_setAddNat_of_mem _ _ x (Or.inl hx)⟩
      · exact stmtBase_trans ⟨rfl, rfl, fun x hx => hx⟩ (visitStmtList_base _ body)
  | .classDef name body lineno => by
      rw [visitStmt]
      exact stmtBase_trans ⟨rfl, rfl, fun x hx => hx⟩ (visitStmtList_base _ body)
  | .assign targets value lineno => by
      refine stmtBase_trans (stmtBase_trans ?_
        (exprPreserved_stmtBase (visitExprList_preserved _ targets)))
        (exprPreserved_stmtBase (visitExpr_preserved _ value))
      by_cases hsc : inTarget st = true
      · rw [if_pos hsc]
        clear hsc
        induction targets generalizing st with
        | nil => exact stmtBase_refl st
        | cons t ts ih =>
            rw [List.foldl_cons]
            refine stmtBase_trans ?_ (ih _)
            rcases t with ⟨i3, c3, l3⟩ | ⟨v3, a3, l3⟩ | ⟨f3, a3, l3⟩ | ⟨l3⟩ <;>
              exact ⟨rfl, rfl, fun x hx => hx⟩
      · rw [if_neg hsc]
        rcases targets with _ | ⟨t, ts⟩
        · exact stmtBase_refl st
        · rcases t with ⟨i3, c3, l3⟩ | ⟨v3, a3, l3⟩ | ⟨f3, a3, l3⟩ | ⟨l3⟩ <;>
            exact ⟨rfl, rfl, fun x hx => hx⟩
  | .globalStmt names lineno => by
      rw [visitStmt]
      induction names generalizing st with
      | nil => exact stmtBase_refl st
      | cons nm ns ih =>
          rw [List.foldl_cons]
          exact stmtBase_trans ⟨rfl, rfl, fun x hx => hx⟩ (ih _)
  | .exprStmt value lineno => by
      refine stmtBase_trans ?_ (exprPreserved_stmtBase (visitExpr_preserved _ value))
      rcases value with ⟨i3, c3, l3⟩ | ⟨v3, a3, l3⟩ | ⟨f3, a3, l3⟩ | ⟨l3⟩
      · exact stmtBase_refl st
      · exact stmtBase_refl st
      · rcases f3 with ⟨i4, c4, l4⟩ | ⟨v4, a4, l4⟩ | ⟨f4, a4, l4⟩ | ⟨l4⟩ <;>
          exact ⟨rfl, rfl, fun x hx => hx⟩
      · exact stmtBase_refl st
  | .ret (some e) lineno => exprPreserved_stmtBase (visitExpr_preserved st e)
  | .ret none lineno => stmtBase_refl st
  | .pass _ => stmtBase_refl st

theorem visitStmtList_base (st : AState) : (ss : List Stmt) → stmtBase st (visitStmtList st ss)
  | [] => stmtBase_refl st
  | s :: ss => by
      rw [visitStmtList]
      exact stmtBase_trans (visitStmt_base st s) (visitStmtList_base _ ss)

end

/-- All record line numbers of `l` lie in `[lo, hi]`. -/
def keysWithin (lo hi : Nat) (l : List Record) : Prop :=
  ∀ r ∈ l, lo ≤ r.2.1 ∧ r.2.1 ≤ hi

/-- All line numbers stored anywhere in the analyzer state lie in `[lo, hi]`
(the target span and the definition table store 0-indexed lines, hence the
`+ 1`). -/
def boundsInv (lo hi : Nat) (st : AState) : Prop :=
  keysWithin lo hi st.linesFunctions ∧ keysWithin lo hi st.linesMethods ∧
  keysWithin lo hi st.linesClasses ∧ keysWithin lo hi st.linesVariables ∧
  keysWithin lo hi st.linesGlobals ∧ keysWithin lo hi st.linesImports ∧
  keysWithin lo hi st.linesObjects ∧
  (∀ n ∈ st.target_function_lines, lo ≤ n + 1 ∧ n + 1 ≤ hi) ∧
  (∀ p ∈ st.global_definitions, lo ≤ p.2 + 1 ∧ p.2 + 1 ≤ hi)

theorem keysWithin_append {lo hi : Nat} {l : List Record} (h : keysWithin lo hi l)
    {r : Record} (h1 : lo ≤ r.2.1) (h2 : r.2.1 ≤ hi) : keysWithin lo hi (l ++ [r]) := by
  intro x hx
  rcases List.mem_append.mp hx with hx | hx
  · exact h x hx
  · rw [List.mem_singleton] at hx
    subst hx
    exact ⟨h1, h2⟩

theorem dictInsert_bound {lo hi : Nat} {d : List (String × Nat)}
    (h : ∀ p ∈ d, lo ≤ p.2 + 1 ∧ p.2 + 1 ≤ hi) {k : String} {v : Nat}
    (hv : lo ≤ v + 1 ∧ v + 1 ≤ hi) :
    ∀ p ∈ dictInsert d k v, lo ≤ p.2 + 1 ∧ p.2 + 1 ≤ hi := by
  intro p hp
  rw [dictInsert] at hp
  split at hp
  · rcases List.mem_map.mp hp with ⟨q, hq, rfl⟩
    split
    · exact hv
    · exact h q hq
  · rcases List.mem_append.mp hp with hq | hq
    · exact h p hq
    · rw [List.mem_singleton] at hq
      subst hq
      exact hv

mutual

theorem visitExpr_bounds (lo hi : Nat) (st : AState) : (e : Expr) →
    exprWithin lo hi e = true → boundsInv lo hi st → boundsInv lo hi (visitExpr st e)
  | .name id ctx lineno, hw, h => by
      simp only [exprWithin, Bool.and_eq_true, decide_eq_true_eq] at hw
      simp only [visitExpr]
      split
      · split
        · obtain ⟨h1, h2, h3, h4, h5, h6, h7, h8, h9⟩ := h
          split
          · exact ⟨h1, h2, h3, keysWithin_append h4 hw.1 hw.2, h5, h6, h7, h8, h9⟩
          · exact ⟨h1, h2, h3, keysWithin_append h4 hw.1 hw.2, h5, h6, h7, h8, h9⟩
        · exact h
      · exact h
  | .attribute v a l, hw, h => by
      simp only [exprWithin, Bool.and_eq_true, decide_eq_true_eq] at hw
      exact visitExpr_bounds lo hi st v hw.2 h
  | .call (.name id cx l2) args lineno, hw, h => by
      simp only [exprWithin, Bool.and_eq_true, decide_eq_true_eq] at hw
      rw [visitExpr]
      refine visitExprList_bounds lo hi _ args hw.2
        (visitExpr_bounds lo hi _ (.name id cx l2) ?_ ?_)
      · simp only [exprWithin, Bool.and_eq_true, decide_eq_true_eq]
        exact hw.1.2
      · split
        · obtain ⟨h1, h2, h3, h4, h5, h6, h7, h8, h9⟩ := h
          exact ⟨keysWithin_append h1 hw.1.1.1 hw.1.1.2, h2, h3, h4, h5, h6, h7, h8, h9⟩
        · exact h
  | .call (.attribute v a2 l2) args lineno, hw, h => by
      simp only [exprWithin, Bool.and_eq_true, decide_eq_true_eq] at hw
      rw [visitExpr]
      refine visitExprList_bounds lo hi _ args hw.2
        (visitExpr_bounds lo hi _ (.attribute v a2 l2) ?_ ?_)
      · simp only [exprWithin, Bool.and_eq_true, decide_eq_true_eq]
        exact hw.1.2
      · obtain ⟨h1, h2, h3, h4, h5, h6, h7, h8, h9⟩ := h
        exact ⟨h1, keysWithin_append h2 hw.1.1.1 hw.1.1.2, h3, h4, h5, h6, h7, h8, h9⟩
  | .call (.call f2 a2 l2) args lineno, hw, h => by
      simp only [exprWithin, Bool.and_eq_true, decide_eq_true_eq] at hw
      rw [visitExpr]
      · refine visitExprList_bounds lo hi _ args hw.2
          (visitExpr_bounds lo hi _ (.call f2 a2 l2) ?_ h)
        simp only [exprWithin, Bool.and_eq_true, decide_eq_true_eq]
        exact hw.1.2
      · simp
      · simp
  | .call (.constant l2) args lineno, hw, h => by
      simp only [exprWithin, Bool.and_eq_true, decide_eq_true_eq] at hw
      rw [visitExpr]
      · refine visitExprList_bounds lo hi _ args hw.2
          (visitExpr_bounds lo hi _ (.constant l2) ?_ h)
        simp only [exprWithin, Bool.and_eq_true, decide_eq_true_eq]
        exact hw.1.2
      · simp
      · simp
  | .constant _, _, h => h

theorem visitExprList_bounds (lo hi : Nat) (st : AState) : (es : List Expr) →
    exprListWithin lo hi es = true → boundsInv lo hi st → boundsInv lo hi (visitExprList st es)
  | [], _, h => h
  | e :: es, hw, h => by
      simp only [exprListWithin, Bool.and_eq_true] at hw
      rw [visitExprList]
      exact visitExprList_bounds lo hi _ es hw.2 (visitExpr_bounds lo hi st e hw.1 h)

end

theorem boundsInv_current {lo hi : Nat} {st : AState} (h : boundsInv lo hi st)
    (c : Option String) : boundsInv lo hi { st with current_function := c } := h

theorem boundsInv_set_tfl {lo hi : Nat} {st : AState} (h : boundsInv lo hi st)
    (c : Option String) (L : List Nat) (hL : ∀ n ∈ L, lo ≤ n + 1 ∧ n + 1 ≤ hi) :
    boundsInv lo hi { st with current_function := c, target_function_lines := L } := by
  obtain ⟨h1, h2, h3, h4, h5, h6, h7, _, h9⟩ := h
  exact ⟨h1, h2, h3, h4, h5, h6, h7, hL, h9⟩

mutual

theorem visitStmt_bounds (lo hi : Nat) (hlo : 1 ≤ lo) (st : AState) : (s : Stmt) →
    stmtWithin lo hi s = true → boundsInv lo hi st → boundsInv lo hi (visitStmt st s)
  | .importStmt names lineno, hw, h => by
      simp only [stmtWithin, Bool.and_eq_true, decide_eq_true_eq] at hw
      rw [visitStmt]
      revert h
      induction names generalizing st with
      | nil => exact fun h => h
      | cons nm ns ih =>
          intro h
          rw [List.foldl_cons]
          refine ih _ ?_
          obtain ⟨h1, h2, h3, h4, h5, h6, h7, h8, h9⟩ := h
          exact ⟨h1, h2, h3, h4, h5, keysWithin_append h6 hw.1 hw.2, h7, h8, h9⟩
  | .importFrom module names lineno, hw, h => by
      simp only [stmtWithin, Bool.and_eq_true, decide_eq_true_eq] at hw
      rw [visitStmt]
      revert h
      induction names generalizing st with
      | nil => exact fun h => h
      | cons nm ns ih =>
          intro h
          rw [List.foldl_cons]
          refine ih _ ?_
          obtain ⟨h1, h2, h3, h4, h5, h6, h7, h8, h9⟩ := h
          exact ⟨h1, h2, h3, h4, h5, keysWithin_append h6 hw.1 hw.2, h7, h8, h9⟩
  | .functionDef name body lineno (some e3), hw, h => by
      simp only [stmtWithin, Bool.and_eq_true, decide_eq_true_eq] at hw
      obtain ⟨⟨⟨ha, hb⟩, hc, hd⟩, he⟩ := hw
      rw [visitStmt]
      split
      · have hsp : ∀ n ∈ (List.range' (lineno - 1) (e3 - (lineno - 1))).foldl setAddNat
            st.target_function_lines, lo ≤ n + 1 ∧ n + 1 ≤ hi := by
          intro n hn
          rcases mem_foldl_setAddNat _ _ n hn with hn2 | hn2
          · exact h.2.2.2.2.2.2.2.1 n hn2
          · rw [List.mem_range'_1] at hn2
            omega
        exact boundsInv_current (visitStmtList_bounds lo hi hlo _ body he
          (boundsInv_set_tfl h (some name) _ hsp)) none
      · refine visitStmtList_bounds lo hi hlo _ body he ?_
        obtain ⟨h1, h2, h3, h4, h5, h6, h7, h8, h9⟩ := h
        exact ⟨keysWithin_append h1 ha hb, h2, h3, h4, h5, h6, h7, h8, h9⟩
  | .functionDef name body lineno none, hw, h => by
      simp only [stmtWithin, Bool.and_true, Bool.and_eq_true, decide_eq_true_eq] at hw
      obtain ⟨⟨ha, hb⟩, he⟩ := hw
      rw [visitStmt]
      split
      · have hsp : ∀ n ∈ (List.range' (lineno - 1) ((lineno - 1) - (lineno - 1))).foldl setAddNat
            st.target_function_lines, lo ≤ n + 1 ∧ n + 1 ≤ hi := by
          intro n hn
          rcases mem_foldl_setAddNat _ _ n hn with hn2 | hn2
          · exact h.2.2.2.2.2.2.2.1 n hn2
          · rw [List.mem_range'_1] at hn2
            omega
        exact boundsInv_current (visitStmtList_bounds lo hi hlo _ body he
          (boundsInv_set_tfl h (some name) _ hsp)) none
      · refine visitStmtList_bounds lo hi hlo _ body he ?_
        obtain ⟨h1, h2, h3, h4, h5, h6, h7, h8, h9⟩ := h
        exact ⟨keysWithin_append h1 ha hb, h2, h3, h4, h5, h6, h7, h8, h9⟩
  | .classDef name body lineno, hw, h => by
      simp only [stmtWithin, Bool.and_eq_true, decide_eq_true_eq] at hw
      rw [visitStmt]
      refine visitStmtList_bounds lo hi hlo _ body hw.2 ?_
      obtain ⟨h1, h2, h3, h4, h5, h6, h7, h8, h9⟩ := h
      exact ⟨h1, h2, keysWithin_append h3 hw.1.1 hw.1.2, h4, h5, h6, h7, h8, h9⟩
  | .assign targets value lineno, hw, h => by
      simp only [stmtWithin, Bool.and_eq_true, decide_eq_true_eq] at hw
      obtain ⟨⟨⟨hl1, hl2⟩, htg⟩, hv⟩ := hw
      refine visitExpr_bounds lo hi _ value hv (visitExprList_bounds lo hi _ targets htg ?_)
      clear htg hv
      by_cases hsc : inTarget st = true
      · rw [if_pos hsc]
        clear hsc
        revert h
        induction targets generalizing st with
        | nil => exact fun h => h
        | cons t ts ih =>
            intro h
            rw [List.foldl_cons]
            refine ih _ ?_
            rcases t with ⟨i3, c3, l3⟩ | ⟨v3, a3, l3⟩ | ⟨f3, a3, l3⟩ | ⟨l3⟩
            · obtain ⟨h1, h2, h3, h4, h5, h6, h7, h8, h9⟩ := h
              exact ⟨h1, h2, h3, keysWithin_append h4 hl1 hl2, h5, h6, h7, h8, h9⟩
            · exact h
            · exact h
            · exact h
      · rw [if_neg hsc]
        rcases targets with _ | ⟨t, ts⟩
        · exact h
        · rcases t with ⟨i3, c3, l3⟩ | ⟨v3, a3, l3⟩ | ⟨f3, a3, l3⟩ | ⟨l3⟩
          · obtain ⟨h1, h2, h3, h4, h5, h6, h7, h8, h9⟩ := h
            refine ⟨h1, h2, h3, h4, h5, h6, h7, h8, ?_⟩
            refine dictInsert_bound h9 ?_
            omega
          · exact h
          · exact h
          · exact h
  | .globalStmt names lineno, hw, h => by
      simp only [stmtWithin, Bool.and_eq_true, decide_eq_true_eq] at hw
      rw [visitStmt]
      revert h
      induction names generalizing st with
      | nil => exact fun h => h
      | cons nm ns ih =>
          intro h
          rw [List.foldl_cons]
          refine ih _ ?_
          obtain ⟨h1, h2, h3, h4, h5, h6, h7, h8, h9⟩ := h
          exact ⟨h1, h2, h3, h4, keysWithin_append h5 hw.1 hw.2, h6, h7, h8, h9⟩
  | .exprStmt (.call (.name id cx l2) cargs l3) lineno, hw, h => by
      simp only [stmtWithin, Bool.and_eq_true, decide_eq_true_eq] at hw
      rw [visitStmt]
      refine visitExpr_bounds lo hi _ _ hw.2 ?_
      obtain ⟨h1, h2, h3, h4, h5, h6, h7, h8, h9⟩ := h
      exact ⟨h1, h2, h3, h4, h5, h6, keysWithin_append h7 hw.1.1 hw.1.2, h8, h9⟩
  | .exprStmt (.call (.attribute v3 a3 l4) cargs l3) lineno, hw, h => by
      simp only [stmtWithin, Bool.and_eq_true, decide_eq_true_eq] at hw
      rw [visitStmt] <;> first | exact visitExpr_bounds lo hi _ _ hw.2 h | simp
  | .exprStmt (.call (.call f3 a3 l4) cargs l3) lineno, hw, h => by
      simp only [stmtWithin, Bool.and_eq_true, decide_eq_true_eq] at hw
      rw [visitStmt] <;> first | exact visitExpr_bounds lo hi _ _ hw.2 h | simp
  | .exprStmt (.call (.constant l4) cargs l3) lineno, hw, h => by
      simp only [stmtWithin, Bool.and_eq_true, decide_eq_true_eq] at hw
      rw [visitStmt] <;> first | exact visitExpr_bounds lo hi _ _ hw.2 h | simp
  | .exprStmt (.name id3 cx3 l3) lineno, hw, h => by
      simp only [stmtWithin, Bool.and_eq_true, decide_eq_true_eq] at hw
      rw [visitStmt] <;> first | exact visitExpr_bounds lo hi _ _ hw.2 h | simp
  | .exprStmt (.attribute v3 a3 l3) lineno, hw, h => by
      simp only [stmtWithin, Bool.and_eq_true, decide_eq_true_eq] at hw
      rw [visitStmt] <;> first | exact visitExpr_bounds lo hi _ _ hw.2 h | simp
  | .exprStmt (.constant l3) lineno, hw, h => by
      simp only [stmtWithin, Bool.and_eq_true, decide_eq_true_eq] at hw
      rw [visitStmt] <;> first | exact visitExpr_bounds lo hi _ _ hw.2 h | simp
  | .ret (some e) lineno, hw, h => by
      simp only [stmtWithin, Bool.and_eq_true, decide_eq_true_eq] at hw
      rw [visitStmt]
      exact visitExpr_bounds lo hi _ e hw.2 h
  | .ret none lineno, _, h => h
  | .pass _, _, h => h

theorem visitStmtList_bounds (lo hi : Nat) (hlo : 1 ≤ lo) (st : AState) : (ss : List Stmt) →
    stmtListWithin lo hi ss = true → boundsInv lo hi st → boundsInv lo hi (visitStmtList st ss)
  | [], _, h => h
  | s :: ss, hw, h => by
      simp only [stmtListWithin, Bool.and_eq_true] at hw
      rw [visitStmtList]
      exact visitStmtList_bounds lo hi hlo _ ss hw.2 (visitStmt_bounds lo hi hlo st s hw.1 h)

end

theorem boundsInv_initState (lo hi : Nat) (target code : String) :
    boundsInv lo hi (initState target code) := by
  refine ⟨?_, ?_, ?_, ?_, ?_, ?_, ?_, ?_, ?_⟩ <;> intro r hr <;> simp [initState] at hr

theorem keysWithin_allCategory {lo hi : Nat} {st : AState} (h : boundsInv lo hi st) :
    keysWithin lo hi (allCategoryLines st) := by
  obtain ⟨h1, h2, h3, h4, h5, h6, h7, _, _⟩ := h
  intro r hr
  simp only [allCategoryLines, List.mem_append] at hr
  rcases hr with ((((((hr | hr) | hr) | hr) | hr) | hr) | hr)
  exacts [h1 r hr, h2 r hr, h3 r hr, h4 r hr, h5 r hr, h6 r hr, h7 r hr]

/-- A line number present among the input records survives the deduplication
pass (some record with that key is kept). -/
theorem dedup_keys_exists {k : Nat} : ∀ {lst : List Record} {seen : List Nat},
    k ∉ seen → (∃ r ∈ lst, rkey r = k) → ∃ u ∈ dedupGo seen lst, rkey u = k := by
  intro lst
  induction lst with
  | nil =>
      intro seen hk h
      obtain ⟨r, hr, _⟩ := h
      exact absurd hr (List.not_mem_nil r)
  | cons a l ih =>
      intro seen hk h
      by_cases hak : rkey a = k
      · have hns : a.2.1 ∉ seen := by
          simp only [rkey] at hak
          rw [hak]
          exact hk
        rw [dedupGo_cons_new hns]
        exact ⟨a, List.mem_cons_self a _, hak⟩
      · obtain ⟨r, hr, hrk⟩ := h
        have hrl : r ∈ l := by
          rcases List.mem_cons.mp hr with rfl | h2
          · exact absurd hrk hak
          · exact h2
        by_cases hs : a.2.1 ∈ seen
        · rw [dedupGo_cons_mem hs]
          exact ih hk ⟨r, hrl, hrk⟩
        · rw [dedupGo_cons_new hs]
          have hk2 : k ∉ a.2.1 :: seen := by
            intro hc
            rcases List.mem_cons.mp hc with hc | hc
            · simp only [rkey] at hak
              exact hak hc.symm
            · exact hk hc
          obtain ⟨u, hu, huk⟩ := ih hk2 ⟨r, hrl, hrk⟩
          exact ⟨u, List.mem_cons_of_mem a hu, huk⟩

/-- Under the bounds and text invariants of the analyzer state, every record
assembled by `combine_and_sort_lines`'s first phase has its key in `[lo, hi]`
and stores the physical source line at its key. -/
theorem combineAllLines_bounds_text (fca : FCA) (lo hi : Nat)
    (hb : boundsInv lo hi fca.st) (ht : textInv fca.st)
    (hcl : fca.st.code_lines = pySplitlines fca.code) :
    ∀ r ∈ combineAllLines fca, (lo ≤ r.2.1 ∧ r.2.1 ≤ hi) ∧
      r.2.2 = lineAt (pySplitlines fca.code) r.2.1 := by
  intro r hr
  simp only [combineAllLines, List.mem_append] at hr
  rcases hr with ((hr | hr) | hr) | hr
  · exact ⟨keysWithin_allCategory hb r hr, hcl ▸ textInv_allCategory ht r hr⟩
  · rcases List.mem_map.mp hr with ⟨n, hn, rfl⟩
    exact ⟨hb.2.2.2.2.2.2.2.1 n hn, rfl⟩
  · rcases List.mem_filterMap.mp hr with ⟨g, hg, hmap⟩
    have hmap' : (dictLookup fca.st.global_definitions g).map (fun ln =>
        ("global_definition", ln + 1, (pySplitlines fca.code).getD ln "")) = some r := hmap
    rcases hdl : dictLookup fca.st.global_definitions g with _ | ln <;> rw [hdl] at hmap'
    · simp at hmap'
    · simp only [Option.map_some', Option.some.injEq] at hmap'
      subst hmap'
      rw [dictLookup] at hdl
      rcases hf : fca.st.global_definitions.find? (fun p => p.1 == g) with _ | p <;>
        rw [hf] at hdl
      · simp at hdl
      · simp only [Option.map_some', Option.some.injEq] at hdl
        have hpm : p ∈ fca.st.global_definitions := List.mem_of_find?_eq_some hf
        have hbd := hb.2.2.2.2.2.2.2.2 p hpm
        exact ⟨show lo ≤ ln + 1 ∧ ln + 1 ≤ hi by omega, rfl⟩
  · rcases List.mem_filterMap.mp hr with ⟨g, hg, hmap⟩
    have hmap' : (dictLookup fca.st.global_definitions g).map (fun ln =>
        ("global_object", ln + 1, (pySplitlines fca.code).getD ln "")) = some r := hmap
    rcases hdl : dictLookup fca.st.global_definitions g with _ | ln <;> rw [hdl] at hmap'
    · simp at hmap'
    · simp only [Option.map_some', Option.some.injEq] at hmap'
      subst hmap'
      rw [dictLookup] at hdl
      rcases hf : fca.st.global_definitions.find? (fun p => p.1 == g) with _ | p <;>
        rw [hf] at hdl
      · simp at hdl
      · simp only [Option.map_some', Option.some.injEq] at hdl
        have hpm : p ∈ fca.st.global_definitions := List.mem_of_find?_eq_some hf
        have hbd := hb.2.2.2.2.2.2.2.2 p hpm
        exact ⟨show lo ≤ ln + 1 ∧ ln + 1 ≤ hi by omega, rfl⟩

/-- When every assembled record's key lies in `[lo, hi]`, every key of
`[lo, hi]` is represented, and every record stores the source line at its key,
the deduplicated sorted list has exactly the keys `lo, ..., hi` in order and
the assembled snippet is exactly those source lines joined. -/
theorem combine_keys_eq_range' (fca : FCA) (lo hi : Nat)
    (hall : ∀ r ∈ combineAllLines fca, (lo ≤ r.2.1 ∧ r.2.1 ≤ hi) ∧
        r.2.2 = lineAt (pySplitlines fca.code) r.2.1)
    (hcov : ∀ k, lo ≤ k → k ≤ hi → ∃ r ∈ combineAllLines fca, r.2.1 = k) :
    (combine_and_sort_lines fca).map rkey = List.range' lo (hi + 1 - lo) ∧
    output_code_snippet fca =
      joinWith "\n" ((List.range' lo (hi + 1 - lo)).map (lineAt (pySplitlines fca.code))) := by
  have hD : (combine_and_sort_lines fca).Pairwise (fun a b => rkey a < rkey b) :=
    dedup_lines_strict_sorted (pySorted_sorted (combineAllLines fca))
  have hsubD : ∀ r ∈ combine_and_sort_lines fca, r ∈ combineAllLines fca := by
    intro r hr
    have h1 : r ∈ pySorted (combineAllLines fca) :=
      List.Sublist.subset (dedupGo_sublist [] _) hr
    exact (List.mem_insertionSort recLE).mp h1
  have hmemD : ∀ k, k ∈ (combine_and_sort_lines fca).map rkey ↔
      k ∈ List.range' lo (hi + 1 - lo) := by
    intro k
    rw [List.mem_range'_1]
    constructor
    · intro hk
      rcases List.mem_map.mp hk with ⟨r, hr, rfl⟩
      have hbk := (hall r (hsubD r hr)).1
      simp only [rkey]
      omega
    · intro hk
      obtain ⟨r, hr, hrk⟩ := hcov k (by omega) (by omega)
      have hr' : r ∈ pySorted (combineAllLines fca) := (List.mem_insertionSort recLE).mpr hr
      obtain ⟨u, hu, huk⟩ := dedup_keys_exists (List.not_mem_nil k) ⟨r, hr', hrk⟩
      exact List.mem_map.mpr ⟨u, hu, huk⟩
  have hsort : ((combine_and_sort_lines fca).map rkey).Pairwise (· < ·) := by
    rw [List.pairwise_map]
    exact hD
  have hnd : ((combine_and_sort_lines fca).map rkey).Nodup := hsort.imp Nat.ne_of_lt
  have hsr : (List.range' lo (hi + 1 - lo)).Pairwise (· < ·) := List.pairwise_lt_range' lo _
  have hndr : (List.range' lo (hi + 1 - lo)).Nodup := hsr.imp Nat.ne_of_lt
  haveI : IsAntisymm Nat (· < ·) := ⟨fun a b h1 h2 => absurd h2 (Nat.lt_asymm h1)⟩
  have hkeys : (combine_and_sort_lines fca).map rkey = List.range' lo (hi + 1 - lo) :=
    List.eq_of_perm_of_sorted ((List.perm_ext_iff_of_nodup hnd hndr).mpr hmemD) hsort hsr
  refine ⟨hkeys, ?_⟩
  show joinWith "\n" ((combine_and_sort_lines fca).map (fun u => u.2.2)) = _
  have htext : (combine_and_sort_lines fca).map (fun u => u.2.2) =
      ((combine_and_sort_lines fca).map rkey).map (lineAt (pySplitlines fca.code)) := by
    rw [List.map_map]
    exact List.map_congr_left (fun r hr => (hall r (hsubD r hr)).2)
  rw [htext, hkeys]

/-- Unit text of the leaf-function corpus: `f` calls nothing and reads no
global, but another function `other` is also defined at top level. -/
def c8Code : String := "def other():\n    pass\ndef f():\n    return 1"

/-- Syntax tree of `c8Code`. -/
def c8Mod : Module :=
  [.functionDef "other" [.pass 2] 1 (some 2),
   .functionDef "f" [.ret (some (.constant 4)) 4] 3 (some 4)]

/-- The analysis of `c8Code` for target `f`, packaged as a
`FunctionContextAnalyzer`. -/
def c8FCA : FCA := ⟨"f", c8Code, visitStmtList (initState "f" c8Code) c8Mod⟩

/-- Counterexample to Claim C8 as stated: in `c8Code` the target `f` (lines
3-4) calls no function and reads no global — the analysis's used-globals set
is empty and its only function record is the header that `visit_FunctionDef`
stores for the OTHER top-level definition — yet the assembled snippet contains
line 1, `other`'s header, in addition to `f`'s own lines, so it is not equal
to the target function's own lines alone. -/
theorem c8_other_toplevel_included :
    c8FCA.st.used_globals = [] ∧
    c8FCA.st.linesFunctions = [("other", 1, "def other():")] ∧
    output_code_snippet c8FCA = "def other():\ndef f():\n    return 1" ∧
    output_code_snippet c8FCA ≠ joinWith "\n" ["def f():", "    return 1"] :=
  ⟨rfl, rfl, rfl, by decide⟩

/-- Claim C8, amended: when the source unit consists solely of the target
function's definition, spanning lines `l` to `e2` of the unit, the assembled
snippet equals exactly the unit's lines `l` to `e2` — the target's own
lines — joined in original order (no leaf-ness hypothesis is needed); the
original claim fails for units with further top-level statements. -/
theorem c8_sole_def_snippet (t code : String) (body : List Stmt) (l e2 : Nat)
    (hl : 1 ≤ l) (hle : l ≤ e2) (hbody : stmtListWithin l e2 body = true) :
    output_code_snippet ⟨t, code, visitStmtList (initState t code)
        [.functionDef t body l (some e2)]⟩ =
      joinWith "\n" ((List.range' l (e2 + 1 - l)).map (lineAt (pySplitlines code))) := by
  have hsw : stmtListWithin l e2 [Stmt.functionDef t body l (some e2)] = true := by
    simp only [stmtListWithin, stmtWithin, hbody, Bool.and_true, Bool.and_eq_true,
      decide_eq_true_eq]
    omega
  have hb : boundsInv l e2 (visitStmtList (initState t code)
      [Stmt.functionDef t body l (some e2)]) :=
    visitStmtList_bounds l e2 hl (initState t code) _ hsw (boundsInv_initState l e2 t code)
  have ht : textInv (visitStmtList (initState t code)
      [Stmt.functionDef t body l (some e2)]) :=
    visitStmtList_textInv (initState t code) _ (textInv_initState t code)
  have hcl : (visitStmtList (initState t code)
        [Stmt.functionDef t body l (some e2)]).code_lines = pySplitlines code :=
    (visitStmtList_base (initState t code) [Stmt.functionDef t body l (some e2)]).1
  have hall := combineAllLines_bounds_text
    ⟨t, code, visitStmtList (initState t code) [Stmt.functionDef t body l (some e2)]⟩
    l e2 hb ht hcl
  have hcov : ∀ k, l ≤ k → k ≤ e2 →
      ∃ r ∈ combineAllLines ⟨t, code, visitStmtList (initState t code)
          [Stmt.functionDef t body l (some e2)]⟩, r.2.1 = k := by
    intro k hk1 hk2
    have hn : k - 1 ∈ List.range' (l - 1) (e2 - (l - 1)) := by
      rw [List.mem_range'_1]
      omega
    have htf : k - 1 ∈ (visitStmtList (initState t code)
        [Stmt.functionDef t body l (some e2)]).target_function_lines := by
      rw [visitStmtList, visitStmtList, visitStmt]
      split
      · have hfold := mem_foldl_setAddNat_of_mem (List.range' (l - 1) (e2 - (l - 1))) []
          (k - 1) (Or.inr hn)
        have hb2 := visitStmtList_base
          { initState t code with
            current_function := some t,
            target_function_lines := (List.range' (l - 1) (e2 - (l - 1))).foldl setAddNat [] }
          body
        exact hb2.2.2 (k - 1) hfold
      · rename_i hne
        exact absurd rfl hne
    refine ⟨("target_function", (k - 1) + 1, (pySplitlines code).getD (k - 1) ""), ?_, ?_⟩
    · simp only [combineAllLines, List.mem_append]
      exact Or.inl (Or.inl (Or.inr (List.mem_map.mpr ⟨k - 1, htf, rfl⟩)))
    · show k - 1 + 1 = k
      omega
  exact (combine_keys_eq_range'
    ⟨t, code, visitStmtList (initState t code) [Stmt.functionDef t body l (some e2)]⟩
    l e2 hall hcov).2

/-- Witness for C8 at the sole-definition unit `def f():\n    return 1`
(target `f` spans lines 1-2): the snippet is exactly those two lines. -/
theorem c8_sole_def_snippet_witness :
    stmtListWithin 1 2 [Stmt.ret (some (.constant 2)) 2] = true ∧
    output_code_snippet ⟨"f", "def f():\n    return 1",
        visitStmtList (initState "f" "def f():\n    return 1")
          [.functionDef "f" [.ret (some (.constant 2)) 2] 1 (some 2)]⟩ =
      joinWith "\n" ((List.range' 1 (2 + 1 - 1)).map
        (lineAt (pySplitlines "def f():\n    return 1"))) :=
  ⟨by decide, c8_sole_def_snippet "f" "def f():\n    return 1"
      [.ret (some (.constant 2)) 2] 1 2 (by decide) (by decide) (by decide)⟩

/-- Witness for C10: outside target scope, `x = y = 1` enters only `x` into
the table; the second target `y` is not entered. -/
theorem c10_first_target_only_witness :
    (visitStmt (initState "f" "x = y = 1")
      (.assign [.name "x" .store 1, .name "y" .store 1] (.constant 1) 1)).global_definitions =
      [("x", 0)] := by
  rw [c10_first_target_only.1 (initState "f" "x = y = 1")
    [.name "x" .store 1, .name "y" .store 1] (.constant 1) 1 rfl]
  rfl

end PySlice
